import Mathlib

/-!
Verification development for the dice-formula library (dice.py): a shallow
embedding of the lexer, the recursive-descent parser, the Die and DiceBag
data model and their roll semantics, followed by theorems settling the
specification claims.

Conventions of the embedding:
* formula text is a list of characters; the lexer state is the pair of the
  text and a cursor position, with the current-character view derived from
  them exactly as the Python property does;
* Python exceptions become the explicit error type Err carried in Except;
* the two unbounded source loops (the modifier loop of Parser.die and the
  term loop of Parser.dice) are driven by a fuel argument; the entry point
  DiceBag.from_str supplies fuel larger than the number of tokens of the
  input, so the out-of-fuel branch is unreachable for it (each loop
  iteration consumes at least two characters of input);
* randomness is embedded as an oracle: Die.roll receives the list of draws
  that random.randint would have produced, and returns none when the draws
  are not a possible outcome (in particular randint (1, sides) with
  sides < 1 raises, so no draw list is valid for such a die).
-/

/-- Token kinds, mirroring the TokenType enumeration of the source. -/
inductive TokenType where
  | INTEGER
  | DELIM
  | PLUS
  | MINUS
  | EOF
deriving DecidableEq

/-- Tokens. INTEGER carries its parsed numeric value; the fixed literal
payloads of DELIM, PLUS and MINUS in the source are determined by the kind
and are omitted, as is the absent payload of EOF. -/
inductive Token where
  | INTEGER (value : Nat)
  | DELIM
  | PLUS
  | MINUS
  | EOF
deriving DecidableEq

/-- The kind of a token. -/
def Token.type : Token → TokenType
  | .INTEGER _ => .INTEGER
  | .DELIM => .DELIM
  | .PLUS => .PLUS
  | .MINUS => .MINUS
  | .EOF => .EOF

/-- Errors raised by the source: invalidInput is the ValueError of the Lexer
constructor on empty text; invalidChar the ValueError of get_next_token on an
unrecognized character; noneIsDecimal the AttributeError raised when
get_next_token dereferences the current character after skip_whitespace has
run off the end of the text; unexpectedToken the ValueError of Parser.eat;
invalidArgument the failing assertion of peek_next_token for ahead below one;
outOfFuel is the artifact of the fuel-driven loops and corresponds to no
source behaviour (it is unreachable for the fuel chosen by from_str). -/
inductive Err where
  | invalidInput
  | invalidChar (c : Char) (index : Nat)
  | noneIsDecimal
  | unexpectedToken (expected : TokenType) (actual : TokenType)
  | invalidArgument
  | outOfFuel
deriving DecidableEq

/-- A die term: number of sides, number of dice, flat modifier.
Field order follows the source dataclass. -/
structure Die where
  sides : Nat
  num_dice : Nat
  modifier : Int
deriving DecidableEq

/-- A signed die term of a DiceBag. -/
structure DiceBagItem where
  die : Die
  subtracted : Bool
deriving DecidableEq

/-- An ordered bag of signed die terms. -/
structure DiceBag where
  _bag : List DiceBagItem
deriving DecidableEq

/-! ### Roll semantics

random.randint (1, s) returns some integer v with 1 <= v <= s and raises
when s < 1.  A roll of a die is embedded as a function of the draw list the
random source produced: the result is some value exactly when the draws are
a possible outcome of num_dice calls of randint. -/

/-- The draws are a possible outcome for this die: one draw per die, each in
the closed interval from 1 to sides. -/
def DrawsValid (d : Die) (draws : List Int) : Prop :=
  draws.length = d.num_dice ∧ ∀ x ∈ draws, 1 ≤ x ∧ x ≤ (d.sides : Int)

instance (d : Die) (draws : List Int) : Decidable (DrawsValid d draws) := by
  unfold DrawsValid; infer_instance

/-- Die.roll: the sum of num_dice draws of randint (1, sides) plus the
modifier, as a function of the oracle draw list. -/
def Die.roll (d : Die) (draws : List Int) : Option Int :=
  if DrawsValid d draws then some (draws.sum + d.modifier) else none

/-- DiceBagItem.roll: the multiplier is minus one for a subtracted term. -/
def DiceBagItem.roll (it : DiceBagItem) (draws : List Int) : Option Int :=
  (it.die.roll draws).map fun v => (if it.subtracted then -1 else 1) * v

/-- Sum of the signed rolls of a list of items, one draw list per item. -/
def DiceBag.roll_items : List DiceBagItem → List (List Int) → Option Int
  | [], [] => some 0
  | it :: items, draws :: rest => do
      let v ← it.roll draws
      let r ← DiceBag.roll_items items rest
      pure (v + r)
  | _, _ => none

/-- DiceBag.roll: the sum of the signed rolls of all terms of the bag. -/
def DiceBag.roll (b : DiceBag) (drawss : List (List Int)) : Option Int :=
  DiceBag.roll_items b._bag drawss

/-! ### String rendering -/

/-- The character of a decimal digit value. -/
def digitChar (n : Nat) : Char := Char.ofNat (48 + n)

/-- Decimal rendering of a natural number, big-endian, fuel-driven; the fuel
n + 1 of natToChars always suffices since the value shrinks by a factor of
ten per step. -/
def natToChars_go : Nat → Nat → List Char
  | 0, _ => []
  | fuel + 1, n =>
    if n < 10 then [digitChar n]
    else natToChars_go fuel (n / 10) ++ [digitChar (n % 10)]

/-- Decimal rendering of a natural number, as the Python str of an int. -/
def natToChars (n : Nat) : List Char := natToChars_go (n + 1) n

/-- Rendering of an integer with an explicit sign, as the Python format
specifier plus does. -/
def intPlusChars (m : Int) : List Char :=
  if m < 0 then '-' :: natToChars (-m).toNat else '+' :: natToChars m.toNat

/-- Die string rendering: num_dice, the letter d, sides, and the modifier
with an explicit sign when it is nonzero. -/
def Die.str (d : Die) : List Char :=
  if d.modifier = 0 then natToChars d.num_dice ++ 'd' :: natToChars d.sides
  else natToChars d.num_dice ++ 'd' :: natToChars d.sides ++ intPlusChars d.modifier

/-- Rendering of the items of a bag after the first: each contributes a
space, its sign character, a space and its die rendering. -/
def DiceBag.strTail : List DiceBagItem → List Char
  | [] => []
  | it :: rest =>
      (' ' :: (if it.subtracted then '-' else '+') :: ' ' :: Die.str it.die)
        ++ DiceBag.strTail rest

/-- DiceBag string rendering, as the source loop accumulating term strings. -/
def DiceBag.str (b : DiceBag) : List Char :=
  match b._bag with
  | [] => ("<empty DiceBag>").toList
  | it :: rest => Die.str it.die ++ DiceBag.strTail rest

/-! ### Lexer -/

/-- Lexer state: the text and the cursor position. -/
structure Lexer where
  text : List Char
  pos : Nat
deriving DecidableEq

/-- The current character: the character at the cursor, none past the end,
exactly as the pos setter of the source maintains it. -/
def Lexer.current_char (l : Lexer) : Option Char := (l.text.drop l.pos).head?

/-- Lexer construction: rejects empty text with the invalid-input error. -/
def Lexer.init (text : List Char) : Except Err Lexer :=
  if text = [] then .error .invalidInput else .ok ⟨text, 0⟩

/-- Move the cursor one character forward. -/
def Lexer.advance (l : Lexer) : Lexer := ⟨l.text, l.pos + 1⟩

/-- Set the cursor, as the pos setter (the current-character view is derived
from the pair, so nothing else changes). -/
def Lexer.set_pos (l : Lexer) (p : Nat) : Lexer := ⟨l.text, p⟩

/-- Whitespace skipping loop; the fuel equals the number of unread
characters at entry, which bounds the iterations, so the zero-fuel branch
coincides with the loop exit at the end of the text. -/
def Lexer.skip_go : Nat → Lexer → Lexer
  | 0, l => l
  | fuel + 1, l =>
    match l.current_char with
    | some c => if c.isWhitespace then Lexer.skip_go fuel l.advance else l
    | none => l

/-- skip_whitespace: advance while the current character is whitespace. -/
def Lexer.skip_whitespace (l : Lexer) : Lexer :=
  Lexer.skip_go (l.text.length - l.pos) l

/-- Digit-run consumption loop with accumulator: the int of the consumed
digit string is the left fold of the digit values. The fuel again equals the
number of unread characters, which bounds the iterations. -/
def Lexer.int_go : Nat → Lexer → Nat → Nat × Lexer
  | 0, l, acc => (acc, l)
  | fuel + 1, l, acc =>
    match l.current_char with
    | some c =>
        if c.isDigit then Lexer.int_go fuel l.advance (acc * 10 + (c.toNat - 48))
        else (acc, l)
    | none => (acc, l)

/-- integer: consume a maximal digit run and return its numeric value. -/
def Lexer.integer (l : Lexer) : Nat × Lexer :=
  Lexer.int_go (l.text.length - l.pos) l 0

/-- get_next_token. The source while loop runs at most one iteration: every
branch of its body returns or raises. Entering the loop requires a current
character; after skip_whitespace the source dereferences the current
character without a fresh none-check, so a text whose unread remainder is
nonempty all-whitespace raises (noneIsDecimal). -/
def Lexer.get_next_token (l : Lexer) : Except Err (Token × Lexer) :=
  match l.current_char with
  | none => .ok (Token.EOF, l)
  | some _ =>
    match l.skip_whitespace.current_char with
    | none => .error .noneIsDecimal
    | some c =>
      if c.isDigit then
        .ok (Token.INTEGER l.skip_whitespace.integer.1, l.skip_whitespace.integer.2)
      else if c = 'd' then .ok (Token.DELIM, l.skip_whitespace.advance)
      else if c = '+' then .ok (Token.PLUS, l.skip_whitespace.advance)
      else if c = '-' then .ok (Token.MINUS, l.skip_whitespace.advance)
      else .error (.invalidChar c l.skip_whitespace.pos)

/-- Iterated tokenization: gnt_iter l n is the result of the n plus first
successive call of get_next_token starting from l. -/
def Lexer.gnt_iter (l : Lexer) : Nat → Except Err (Token × Lexer)
  | 0 => l.get_next_token
  | n + 1 => do
      let tl ← l.get_next_token
      Lexer.gnt_iter tl.2 n

/-- peek_next_token: assert ahead is at least one, save the cursor, pull
ahead tokens, restore the cursor, return the last token pulled. An error
during pulling propagates (the source does not restore the cursor then, but
the failed state is discarded with the exception). -/
def Lexer.peek_next_token (l : Lexer) (ahead : Int) : Except Err (Token × Lexer) :=
  if ahead < 1 then .error .invalidArgument
  else do
    let tl ← l.gnt_iter (ahead.toNat - 1)
    .ok (tl.1, tl.2.set_pos l.pos)

/-! ### Parser -/

/-- Parser state: the owned lexer and one token of lookahead. -/
structure Parser where
  lexer : Lexer
  current_token : Token
deriving DecidableEq

/-- Parser construction: build the lexer and pull the first token. -/
def Parser.init (text : List Char) : Except Err Parser := do
  let l ← Lexer.init text
  let tl ← l.get_next_token
  .ok ⟨tl.2, tl.1⟩

/-- eat: on a kind match advance to the next token, otherwise raise the
unexpected-token error naming expected and actual kinds. -/
def Parser.eat (p : Parser) (expected : TokenType) : Except Err Parser :=
  if expected = p.current_token.type then do
    let tl ← p.lexer.get_next_token
    .ok ⟨tl.2, tl.1⟩
  else .error (.unexpectedToken expected p.current_token.type)

/-- The modifier loop of Parser.die. While the current token is PLUS or
MINUS, peek one and two tokens ahead (threading the restored lexer returned
by peek, as the source mutates and restores it); the operator and integer
are consumed as a modifier clause exactly when the first peeked token is an
INTEGER and the second is not a DELIM, the integer being added for PLUS and
subtracted for MINUS; otherwise the loop exits leaving the operator for the
enclosing dice rule. The source asserts that the value of an INTEGER token
is an int; the inductive token type makes that assertion vacuous. -/
def Parser.die_loop : Nat → Parser → Int → Except Err (Parser × Int)
  | 0, _, _ => .error .outOfFuel
  | fuel + 1, p, modifier =>
    if p.current_token.type = TokenType.PLUS ∨ p.current_token.type = TokenType.MINUS then do
      let pk1 ← p.lexer.peek_next_token 1
      let pA : Parser := ⟨pk1.2, p.current_token⟩
      let dec ←
        if pk1.1.type = TokenType.INTEGER then do
          let pk2 ← pA.lexer.peek_next_token 2
          (.ok (decide (pk2.1.type ≠ TokenType.DELIM), (⟨pk2.2, p.current_token⟩ : Parser)) :
            Except Err (Bool × Parser))
        else .ok (false, pA)
      if dec.1 then
        if dec.2.current_token.type = TokenType.PLUS then do
          let pC ← dec.2.eat TokenType.PLUS
          match pC.current_token with
          | Token.INTEGER n => do
              let pD ← pC.eat TokenType.INTEGER
              Parser.die_loop fuel pD (modifier + n)
          | _ => .error (.unexpectedToken TokenType.INTEGER pC.current_token.type)
        else do
          let pC ← dec.2.eat TokenType.MINUS
          match pC.current_token with
          | Token.INTEGER n => do
              let pD ← pC.eat TokenType.INTEGER
              Parser.die_loop fuel pD (modifier - n)
          | _ => .error (.unexpectedToken TokenType.INTEGER pC.current_token.type)
      else .ok (dec.2, modifier)
    else .ok (p, modifier)

/-- Parser.die: an optional INTEGER as num_dice (default one), a mandatory
DELIM, a mandatory INTEGER as sides, then the modifier loop. -/
def Parser.die (fuel : Nat) (p : Parser) : Except Err (Parser × Die) := do
  let first ←
    match p.current_token with
    | Token.INTEGER n => do
        let q ← p.eat TokenType.INTEGER
        (.ok (q, n) : Except Err (Parser × Nat))
    | _ => .ok (p, 1)
  let p2 ← first.1.eat TokenType.DELIM
  let second ←
    match p2.current_token with
    | Token.INTEGER n => do
        let q ← p2.eat TokenType.INTEGER
        (.ok (q, n) : Except Err (Parser × Nat))
    | _ => .error (.unexpectedToken TokenType.INTEGER p2.current_token.type)
  let lp ← Parser.die_loop fuel second.1 0
  .ok (lp.1, ⟨second.2, first.2, lp.2⟩)

/-- The term loop of Parser.dice: while the current token is PLUS or MINUS,
consume it and append the next die, subtracted for MINUS. -/
def Parser.dice_loop : Nat → Parser → List DiceBagItem → Except Err (Parser × List DiceBagItem)
  | 0, _, _ => .error .outOfFuel
  | fuel + 1, p, acc =>
    if p.current_token.type = TokenType.PLUS then do
      let p1 ← p.eat TokenType.PLUS
      let pd ← Parser.die fuel p1
      Parser.dice_loop fuel pd.1 (acc ++ [⟨pd.2, false⟩])
    else if p.current_token.type = TokenType.MINUS then do
      let p1 ← p.eat TokenType.MINUS
      let pd ← Parser.die fuel p1
      Parser.dice_loop fuel pd.1 (acc ++ [⟨pd.2, true⟩])
    else .ok (p, acc)

/-- Parser.dice: parse one die into a fresh bag, then the term loop. The
loop exits on any current token other than PLUS and MINUS; end of input is
not required. -/
def Parser.dice (fuel : Nat) (p : Parser) : Except Err (Parser × DiceBag) := do
  let pd ← Parser.die fuel p
  let pl ← Parser.dice_loop fuel pd.1 [⟨pd.2, false⟩]
  .ok (pl.1, ⟨pl.2⟩)

/-- DiceBag.from_str: parse a formula. The fuel exceeds the number of tokens
of the text, so the fuel-driven loops behave as the unbounded source loops. -/
def DiceBag.from_str (formula : List Char) : Except Err DiceBag := do
  let p ← Parser.init formula
  let pb ← Parser.dice (formula.length + 1) p
  .ok pb.2

/-! ### Roll bounds

The specification formulas for the extreme values of a roll.  specMin and
specMax follow the words of the claim: sign times (num_dice times one plus
modifier) and sign times (num_dice times sides plus modifier).  bagMin and
bagMax are the extremes the code actually attains: for a subtracted term
the two specification extremes swap. -/

/-- Specification formula, minimum: sum of sign times (num_dice plus
modifier). -/
def DiceBag.specMin (b : DiceBag) : Int :=
  (b._bag.map fun it =>
    (if it.subtracted then (-1 : Int) else 1) * ((it.die.num_dice : Int) * 1 + it.die.modifier)).sum

/-- Specification formula, maximum: sum of sign times (num_dice times sides
plus modifier). -/
def DiceBag.specMax (b : DiceBag) : Int :=
  (b._bag.map fun it =>
    (if it.subtracted then (-1 : Int) else 1) *
      ((it.die.num_dice : Int) * (it.die.sides : Int) + it.die.modifier)).sum

/-- Least possible signed roll of one item. -/
def DiceBagItem.minRoll (it : DiceBagItem) : Int :=
  if it.subtracted then -((it.die.num_dice : Int) * (it.die.sides : Int) + it.die.modifier)
  else (it.die.num_dice : Int) + it.die.modifier

/-- Greatest possible signed roll of one item. -/
def DiceBagItem.maxRoll (it : DiceBagItem) : Int :=
  if it.subtracted then -((it.die.num_dice : Int) + it.die.modifier)
  else (it.die.num_dice : Int) * (it.die.sides : Int) + it.die.modifier

/-- Least possible roll of a bag. -/
def DiceBag.bagMin (b : DiceBag) : Int := (b._bag.map DiceBagItem.minRoll).sum

/-- Greatest possible roll of a bag. -/
def DiceBag.bagMax (b : DiceBag) : Int := (b._bag.map DiceBagItem.maxRoll).sum

/-! ### Basic lemmas about the lexer state -/

theorem bindE_ok {α β : Type} (a : α) (f : α → Except Err β) :
    (Except.ok a : Except Err α) >>= f = f a := rfl

theorem bindE_error {α β : Type} (e : Err) (f : α → Except Err β) :
    (Except.error e : Except Err α) >>= f = Except.error e := rfl

theorem mapE_ok {α β : Type} (a : α) (f : α → β) :
    (Except.ok a : Except Err α).map f = Except.ok (f a) := rfl

theorem mapE_error {α β : Type} (e : Err) (f : α → β) :
    (Except.error e : Except Err α).map f = Except.error e := rfl

theorem skip_go_text (fuel : Nat) : ∀ l : Lexer, (Lexer.skip_go fuel l).text = l.text := by
  induction fuel with
  | zero => intro l; rfl
  | succ f ih =>
    intro l
    show (match l.current_char with
      | some c => if c.isWhitespace then Lexer.skip_go f l.advance else l
      | none => l).text = l.text
    cases l.current_char with
    | none => rfl
    | some c =>
      by_cases hc : c.isWhitespace
      · simp only [hc, if_true]; exact ih l.advance
      · simp [hc]

theorem skip_whitespace_text (l : Lexer) : l.skip_whitespace.text = l.text :=
  skip_go_text _ l

theorem int_go_text (fuel : Nat) : ∀ (l : Lexer) (a : Nat), (Lexer.int_go fuel l a).2.text = l.text := by
  induction fuel with
  | zero => intro l a; rfl
  | succ f ih =>
    intro l a
    show (match l.current_char with
      | some c => if c.isDigit then Lexer.int_go f l.advance (a * 10 + (c.toNat - 48)) else (a, l)
      | none => (a, l)).2.text = l.text
    cases l.current_char with
    | none => rfl
    | some c =>
      by_cases hc : c.isDigit
      · simp only [hc, if_true]; exact ih l.advance _
      · simp [hc]

theorem integer_text (l : Lexer) : l.integer.2.text = l.text := int_go_text _ l 0

theorem advance_text (l : Lexer) : l.advance.text = l.text := rfl

theorem gnt_text {l : Lexer} {t : Token} {l2 : Lexer}
    (h : l.get_next_token = .ok (t, l2)) : l2.text = l.text := by
  unfold Lexer.get_next_token at h
  split at h
  · simp only [Except.ok.injEq, Prod.mk.injEq] at h
    rw [← h.2]
  · split at h
    · exact absurd h (by simp)
    · split at h
      · simp only [Except.ok.injEq, Prod.mk.injEq] at h
        rw [← h.2, integer_text, skip_whitespace_text]
      · split at h
        · simp only [Except.ok.injEq, Prod.mk.injEq] at h
          rw [← h.2, advance_text, skip_whitespace_text]
        · split at h
          · simp only [Except.ok.injEq, Prod.mk.injEq] at h
            rw [← h.2, advance_text, skip_whitespace_text]
          · split at h
            · simp only [Except.ok.injEq, Prod.mk.injEq] at h
              rw [← h.2, advance_text, skip_whitespace_text]
            · exact absurd h (by simp)

theorem gnt_iter_text : ∀ (n : Nat) (l : Lexer) (t : Token) (l2 : Lexer),
    l.gnt_iter n = .ok (t, l2) → l2.text = l.text := by
  intro n
  induction n with
  | zero => intro l t l2 h; exact gnt_text h
  | succ k ih =>
    intro l t l2 h
    unfold Lexer.gnt_iter at h
    cases hg : l.get_next_token with
    | error e => rw [hg] at h; exact absurd h (by simp [bindE_error])
    | ok tl =>
      rw [hg, bindE_ok] at h
      have := ih tl.2 t l2 h
      rw [this, gnt_text hg]

/-- The lexer returned by a successful peek is the argument itself: the
cursor is restored and the text never changes. -/
theorem peek_restores {l : Lexer} {ahead : Int} {t : Token} {l2 : Lexer}
    (h : l.peek_next_token ahead = .ok (t, l2)) : l2 = l := by
  unfold Lexer.peek_next_token at h
  by_cases ha : ahead < 1
  · simp [ha] at h
  · simp only [ha, if_false] at h
    cases hg : l.gnt_iter (ahead.toNat - 1) with
    | error e => rw [hg] at h; exact absurd h (by simp [bindE_error])
    | ok tl =>
      rw [hg, bindE_ok] at h
      simp only [Except.ok.injEq, Prod.mk.injEq] at h
      rw [← h.2]
      show (⟨tl.2.text, l.pos⟩ : Lexer) = l
      rw [gnt_iter_text _ _ _ _ hg]

/-- Successful peek unfolded: for ahead at least one, peek returns the token
of the iterated tokenization together with the unchanged lexer. -/
theorem peek_spec (l : Lexer) (ahead : Int) (h : 1 ≤ ahead) :
    l.peek_next_token ahead = (l.gnt_iter (ahead.toNat - 1)).map fun tl => (tl.1, l) := by
  unfold Lexer.peek_next_token
  have ha : ¬ ahead < 1 := by omega
  simp only [ha, if_false]
  cases hg : l.gnt_iter (ahead.toNat - 1) with
  | error e => rw [mapE_error]; rfl
  | ok tl =>
    rw [mapE_ok, bindE_ok]
    have : tl.2.set_pos l.pos = l := by
      show (⟨tl.2.text, l.pos⟩ : Lexer) = l
      rw [gnt_iter_text _ _ _ _ hg]
    rw [this]

theorem peek_invalid (l : Lexer) (ahead : Int) (h : ahead < 1) :
    l.peek_next_token ahead = .error .invalidArgument := by
  unfold Lexer.peek_next_token
  simp [h]

/-! ### Character class facts -/

theorem digit_not_ws {c : Char} (h : c.isDigit = true) : c.isWhitespace = false := by
  cases hw : c.isWhitespace with
  | false => rfl
  | true =>
    exfalso
    simp [Char.isWhitespace] at hw
    rcases hw with ((h1 | h1) | h1) | h1 <;> subst h1 <;> exact absurd h (by decide)

theorem digitChar_isDigit {k : Nat} (h : k < 10) : (digitChar k).isDigit = true := by
  unfold digitChar; interval_cases k <;> decide

theorem digitChar_toNat {k : Nat} (h : k < 10) : (digitChar k).toNat = 48 + k := by
  unfold digitChar; interval_cases k <;> decide

/-! ### Positioned lexer states

Lexer.At pre suf is the state whose text is pre followed by suf and whose
cursor sits at the boundary; every lexer state reached while stepping
through a parse is of this shape, and the token-stepping lemmas below are
phrased with it. -/

def Lexer.At (pre suf : List Char) : Lexer := ⟨pre ++ suf, pre.length⟩

theorem At_current (pre suf : List Char) : (Lexer.At pre suf).current_char = suf.head? := by
  show ((pre ++ suf).drop pre.length).head? = suf.head?
  rw [List.drop_left]

theorem At_advance (pre : List Char) (c : Char) (suf : List Char) :
    (Lexer.At pre (c :: suf)).advance = Lexer.At (pre ++ [c]) suf := by
  show (⟨pre ++ c :: suf, pre.length + 1⟩ : Lexer) = ⟨(pre ++ [c]) ++ suf, (pre ++ [c]).length⟩
  simp

theorem At_text (pre suf : List Char) : (Lexer.At pre suf).text = pre ++ suf := rfl

theorem At_pos (pre suf : List Char) : (Lexer.At pre suf).pos = pre.length := rfl

/-! ### Digit folding and stepping lemmas -/

/-- Value of a digit string under the accumulator fold used by the lexer
(the int of the consumed characters). -/
def foldDigits (a : Nat) (cs : List Char) : Nat :=
  cs.foldl (fun x c => x * 10 + (c.toNat - 48)) a

theorem foldDigits_nil (a : Nat) : foldDigits a [] = a := rfl

theorem foldDigits_cons (a : Nat) (c : Char) (cs : List Char) :
    foldDigits a (c :: cs) = foldDigits (a * 10 + (c.toNat - 48)) cs := rfl

theorem foldDigits_append (a : Nat) (xs ys : List Char) :
    foldDigits a (xs ++ ys) = foldDigits (foldDigits a xs) ys :=
  List.foldl_append _ _ _ _

theorem skip_go_head_nows (fuel : Nat) (pre : List Char) (c : Char) (suf : List Char)
    (hc : c.isWhitespace = false) :
    Lexer.skip_go fuel (Lexer.At pre (c :: suf)) = Lexer.At pre (c :: suf) := by
  cases fuel with
  | zero => rfl
  | succ f =>
    rw [Lexer.skip_go, At_current]
    simp [hc]

theorem skip_ws_head_nows (pre : List Char) (c : Char) (suf : List Char)
    (hc : c.isWhitespace = false) :
    (Lexer.At pre (c :: suf)).skip_whitespace = Lexer.At pre (c :: suf) :=
  skip_go_head_nows _ pre c suf hc

theorem skip_ws_nil (pre : List Char) :
    (Lexer.At pre []).skip_whitespace = Lexer.At pre [] := by
  unfold Lexer.skip_whitespace
  cases h : (Lexer.At pre []).text.length - (Lexer.At pre []).pos with
  | zero => rfl
  | succ f =>
    rw [Lexer.skip_go, At_current]
    rfl

theorem int_go_At : ∀ (ds : List Char) (fuel a : Nat) (pre rest : List Char),
    (∀ c ∈ ds, c.isDigit = true) → (∀ c, rest.head? = some c → c.isDigit = false) →
    ds.length ≤ fuel →
    Lexer.int_go fuel (Lexer.At pre (ds ++ rest)) a = (foldDigits a ds, Lexer.At (pre ++ ds) rest) := by
  intro ds
  induction ds with
  | nil =>
    intro fuel a pre rest _ hrest _
    rw [List.nil_append, foldDigits_nil, List.append_nil]
    cases fuel with
    | zero => rfl
    | succ f =>
      rw [Lexer.int_go, At_current]
      cases rest with
      | nil => rfl
      | cons r rs =>
        simp only [List.head?_cons]
        rw [hrest r rfl]
        simp
  | cons d ds ih =>
    intro fuel a pre rest hds hrest hfuel
    cases fuel with
    | zero => exact absurd hfuel (by simp)
    | succ f =>
      rw [Lexer.int_go, At_current]
      simp only [List.cons_append, List.head?_cons]
      rw [hds d (List.mem_cons_self d ds)]
      simp only [if_true]
      have hadv : (Lexer.At pre (d :: (ds ++ rest))).advance = Lexer.At (pre ++ [d]) (ds ++ rest) :=
        At_advance pre d (ds ++ rest)
      have hlen : ds.length ≤ f := by
        simp only [List.length_cons] at hfuel; omega
      rw [hadv, ih f _ (pre ++ [d]) rest (fun c hc => hds c (List.mem_cons_of_mem d hc)) hrest hlen]
      rw [foldDigits_cons]
      simp

theorem integer_At (pre ds rest : List Char)
    (hds : ∀ c ∈ ds, c.isDigit = true) (hrest : ∀ c, rest.head? = some c → c.isDigit = false) :
    (Lexer.At pre (ds ++ rest)).integer = (foldDigits 0 ds, Lexer.At (pre ++ ds) rest) := by
  unfold Lexer.integer
  apply int_go_At ds _ 0 pre rest hds hrest
  show ds.length ≤ (pre ++ (ds ++ rest)).length - pre.length
  simp

/-! ### Token stepping lemmas -/

theorem gnt_int (pre : List Char) (d : Char) (ds rest : List Char)
    (hds : ∀ c ∈ d :: ds, c.isDigit = true)
    (hrest : ∀ c, rest.head? = some c → c.isDigit = false) :
    (Lexer.At pre ((d :: ds) ++ rest)).get_next_token =
      .ok (Token.INTEGER (foldDigits 0 (d :: ds)), Lexer.At (pre ++ (d :: ds)) rest) := by
  have hd : d.isDigit = true := hds d (List.mem_cons_self d ds)
  have hws : d.isWhitespace = false := digit_not_ws hd
  have hint := integer_At pre (d :: ds) rest hds hrest
  rw [List.cons_append] at hint
  unfold Lexer.get_next_token
  rw [At_current]
  simp only [List.cons_append, List.head?_cons]
  rw [skip_ws_head_nows _ _ _ hws, At_current]
  simp only [List.head?_cons]
  rw [hd]
  simp only [if_true, hint]

theorem gnt_delim (pre rest : List Char) :
    (Lexer.At pre ('d' :: rest)).get_next_token =
      .ok (Token.DELIM, Lexer.At (pre ++ ['d']) rest) := by
  unfold Lexer.get_next_token
  rw [At_current]
  simp only [List.head?_cons]
  rw [skip_ws_head_nows _ _ _ (by decide), At_current]
  simp only [List.head?_cons]
  rw [show ('d' : Char).isDigit = false from by decide]
  simp only [Bool.false_eq_true, if_false, if_true, At_advance]

theorem gnt_plus (pre rest : List Char) :
    (Lexer.At pre ('+' :: rest)).get_next_token =
      .ok (Token.PLUS, Lexer.At (pre ++ ['+']) rest) := by
  unfold Lexer.get_next_token
  rw [At_current]
  simp only [List.head?_cons]
  rw [skip_ws_head_nows _ _ _ (by decide), At_current]
  simp only [List.head?_cons]
  rw [show ('+' : Char).isDigit = false from by decide]
  simp only [Bool.false_eq_true, if_false]
  rw [if_neg (show ¬(('+' : Char) = 'd') from by decide)]
  rw [if_pos trivial]
  rw [At_advance]

theorem gnt_minus (pre rest : List Char) :
    (Lexer.At pre ('-' :: rest)).get_next_token =
      .ok (Token.MINUS, Lexer.At (pre ++ ['-']) rest) := by
  unfold Lexer.get_next_token
  rw [At_current]
  simp only [List.head?_cons]
  rw [skip_ws_head_nows _ _ _ (by decide), At_current]
  simp only [List.head?_cons]
  rw [show ('-' : Char).isDigit = false from by decide]
  simp only [Bool.false_eq_true, if_false]
  rw [if_neg (show ¬(('-' : Char) = 'd') from by decide)]
  rw [if_neg (show ¬(('-' : Char) = '+') from by decide)]
  rw [if_pos trivial]
  rw [At_advance]

theorem gnt_eof (pre : List Char) :
    (Lexer.At pre []).get_next_token = .ok (Token.EOF, Lexer.At pre []) := by
  unfold Lexer.get_next_token
  rw [At_current]
  rfl

theorem gnt_space (pre : List Char) (c : Char) (rest : List Char) :
    (Lexer.At pre (' ' :: c :: rest)).get_next_token =
      (Lexer.At (pre ++ [' ']) (c :: rest)).get_next_token := by
  have hskip : (Lexer.At pre (' ' :: c :: rest)).skip_whitespace
      = (Lexer.At (pre ++ [' ']) (c :: rest)).skip_whitespace := by
    unfold Lexer.skip_whitespace
    have h1 : (Lexer.At pre (' ' :: c :: rest)).text.length
        - (Lexer.At pre (' ' :: c :: rest)).pos = rest.length + 2 := by
      rw [At_text, At_pos]; simp
    have h2 : (Lexer.At (pre ++ [' ']) (c :: rest)).text.length
        - (Lexer.At (pre ++ [' ']) (c :: rest)).pos = rest.length + 1 := by
      simp only [At_text, At_pos, List.length_append, List.length_cons]
      omega
    rw [h1, h2, Lexer.skip_go, At_current]
    simp only [List.head?_cons]
    rw [show (' ' : Char).isWhitespace = true from by decide]
    simp only [if_true, At_advance]
  unfold Lexer.get_next_token
  rw [At_current, At_current]
  simp only [List.head?_cons]
  rw [hskip]

theorem gnt_digit_head (pre : List Char) (c : Char) (rest : List Char) (h : c.isDigit = true) :
    ∃ n l2, (Lexer.At pre (c :: rest)).get_next_token = .ok (Token.INTEGER n, l2) := by
  unfold Lexer.get_next_token
  rw [At_current]
  simp only [List.head?_cons]
  rw [skip_ws_head_nows _ _ _ (digit_not_ws h), At_current]
  simp only [List.head?_cons]
  rw [h]
  simp only [if_true]
  exact ⟨_, _, rfl⟩

/-! ### Decimal rendering round-trip -/

theorem natToChars_go_spec : ∀ n : Nat, ∀ fuel : Nat, n ≤ fuel →
    natToChars_go (fuel + 1) n ≠ [] ∧
    (∀ c ∈ natToChars_go (fuel + 1) n, c.isDigit = true) ∧
    ∀ a : Nat, foldDigits a (natToChars_go (fuel + 1) n)
      = a * 10 ^ (natToChars_go (fuel + 1) n).length + n := by
  intro n
  induction n using Nat.strong_induction_on with
  | _ n ih =>
    intro fuel hf
    rw [natToChars_go]
    by_cases h10 : n < 10
    · simp only [h10, if_true]
      refine ⟨by simp, ?_, ?_⟩
      · intro c hc
        simp only [List.mem_singleton] at hc
        subst hc
        exact digitChar_isDigit h10
      · intro a
        rw [foldDigits_cons, foldDigits_nil, digitChar_toNat h10]
        simp only [List.length_singleton, pow_one]
        omega
    · simp only [h10, if_false]
      cases fuel with
      | zero => omega
      | succ f =>
        have hdiv : n / 10 < n := Nat.div_lt_self (by omega) (by omega)
        have hle : n / 10 ≤ f := by omega
        obtain ⟨hne, hdig, hfold⟩ := ih (n / 10) hdiv f hle
        refine ⟨by simp, ?_, ?_⟩
        · intro c hc
          rcases List.mem_append.mp hc with hl | hr
          · exact hdig c hl
          · simp only [List.mem_singleton] at hr
            subst hr
            exact digitChar_isDigit (Nat.mod_lt n (by omega))
        · intro a
          rw [foldDigits_append, hfold a, foldDigits_cons, foldDigits_nil]
          rw [digitChar_toNat (Nat.mod_lt n (by omega))]
          simp only [List.length_append, List.length_singleton, pow_succ]
          have hmod : 10 * (n / 10) + n % 10 = n := Nat.div_add_mod n 10
          ring_nf
          ring_nf at hmod ⊢
          omega

theorem natToChars_ne_nil (n : Nat) : natToChars n ≠ [] :=
  (natToChars_go_spec n n le_rfl).1

theorem natToChars_digits (n : Nat) : ∀ c ∈ natToChars n, c.isDigit = true :=
  (natToChars_go_spec n n le_rfl).2.1

theorem foldDigits_natToChars (n : Nat) : foldDigits 0 (natToChars n) = n := by
  have := (natToChars_go_spec n n le_rfl).2.2 0
  simpa using this

theorem natToChars_cons (n : Nat) : ∃ d ds, natToChars n = d :: ds := by
  cases h : natToChars n with
  | nil => exact absurd h (natToChars_ne_nil n)
  | cons d ds => exact ⟨d, ds, rfl⟩

/-- Head-of-rest facts used to stop a digit run. -/
theorem nd_cons {x : Char} (hx : x.isDigit = false) (xs : List Char) :
    ∀ c, ((x :: xs) : List Char).head? = some c → c.isDigit = false := by
  intro c h
  simp only [List.head?_cons, Option.some.injEq] at h
  subst h
  exact hx

theorem nd_nil : ∀ c, ([] : List Char).head? = some c → c.isDigit = false := by
  intro c h
  simp at h

/-- Tokenizing a rendered numeral: an INTEGER token carrying exactly the
rendered value, consuming exactly the numeral. -/
theorem gnt_nat (pre : List Char) (n : Nat) (rest : List Char)
    (hrest : ∀ c, rest.head? = some c → c.isDigit = false) :
    (Lexer.At pre (natToChars n ++ rest)).get_next_token =
      .ok (Token.INTEGER n, Lexer.At (pre ++ natToChars n) rest) := by
  obtain ⟨d, ds, hds⟩ := natToChars_cons n
  have hdig : ∀ c ∈ d :: ds, c.isDigit = true := by
    rw [← hds]; exact natToChars_digits n
  have hval : foldDigits 0 (d :: ds) = n := by
    rw [← hds]; exact foldDigits_natToChars n
  rw [hds, gnt_int pre d ds rest hdig hrest, hval]

/-! ### Parser stepping lemmas -/

theorem type_INTEGER (n : Nat) : (Token.INTEGER n).type = TokenType.INTEGER := rfl

theorem type_DELIM : Token.DELIM.type = TokenType.DELIM := rfl

theorem type_PLUS : Token.PLUS.type = TokenType.PLUS := rfl

theorem type_MINUS : Token.MINUS.type = TokenType.MINUS := rfl

theorem type_EOF : Token.EOF.type = TokenType.EOF := rfl

theorem eat_step {p : Parser} {tt : TokenType} {t : Token} {l2 : Lexer}
    (h : tt = p.current_token.type) (hg : p.lexer.get_next_token = .ok (t, l2)) :
    p.eat tt = .ok ⟨l2, t⟩ := by
  unfold Parser.eat
  rw [if_pos h, hg, bindE_ok]

theorem peek1_step {l : Lexer} {t : Token} {l2 : Lexer}
    (hg : l.get_next_token = .ok (t, l2)) :
    l.peek_next_token 1 = .ok (t, l) := by
  rw [peek_spec l 1 (by norm_num)]
  rw [show ((1 : Int).toNat - 1) = 0 from rfl]
  rw [show l.gnt_iter 0 = l.get_next_token from rfl, hg, mapE_ok]

theorem peek2_step {l : Lexer} {t1 : Token} {l1 : Lexer} {t2 : Token} {l2 : Lexer}
    (h1 : l.get_next_token = .ok (t1, l1)) (h2 : l1.get_next_token = .ok (t2, l2)) :
    l.peek_next_token 2 = .ok (t2, l) := by
  rw [peek_spec l 2 (by norm_num)]
  rw [show ((2 : Int).toNat - 1) = 1 from rfl]
  unfold Lexer.gnt_iter
  rw [h1, bindE_ok]
  rw [show Lexer.gnt_iter (t1, l1).2 0 = l1.get_next_token from rfl, h2, mapE_ok]

theorem die_loop_exit (f : Nat) (p : Parser) (m : Int)
    (h1 : p.current_token.type ≠ TokenType.PLUS) (h2 : p.current_token.type ≠ TokenType.MINUS) :
    Parser.die_loop (f + 1) p m = .ok (p, m) := by
  rw [Parser.die_loop]
  rw [if_neg (by push_neg; exact ⟨h1, h2⟩)]

theorem die_loop_mod_plus {f : Nat} {p : Parser} {m : Int} {n : Nat}
    {l1 : Lexer} {t2 : Token} {l2 : Lexer}
    (hcur : p.current_token.type = TokenType.PLUS)
    (h1 : p.lexer.get_next_token = .ok (Token.INTEGER n, l1))
    (h2 : l1.get_next_token = .ok (t2, l2))
    (hne : t2.type ≠ TokenType.DELIM) :
    Parser.die_loop (f + 1) p m = Parser.die_loop f ⟨l2, t2⟩ (m + n) := by
  have e1 : p.eat TokenType.PLUS = .ok ⟨l1, Token.INTEGER n⟩ := eat_step hcur.symm h1
  have e2 : (⟨l1, Token.INTEGER n⟩ : Parser).eat TokenType.INTEGER = .ok ⟨l2, t2⟩ :=
    eat_step rfl h2
  rw [Parser.die_loop]
  rw [if_pos (Or.inl hcur)]
  simp only [peek1_step h1, peek2_step h1 h2, bindE_ok, type_INTEGER, hcur,
    decide_eq_true hne, eq_self_iff_true, if_true, e1, e2]

theorem die_loop_mod_minus {f : Nat} {p : Parser} {m : Int} {n : Nat}
    {l1 : Lexer} {t2 : Token} {l2 : Lexer}
    (hcur : p.current_token.type = TokenType.MINUS)
    (h1 : p.lexer.get_next_token = .ok (Token.INTEGER n, l1))
    (h2 : l1.get_next_token = .ok (t2, l2))
    (hne : t2.type ≠ TokenType.DELIM) :
    Parser.die_loop (f + 1) p m = Parser.die_loop f ⟨l2, t2⟩ (m - n) := by
  have e1 : p.eat TokenType.MINUS = .ok ⟨l1, Token.INTEGER n⟩ := eat_step hcur.symm h1
  have e2 : (⟨l1, Token.INTEGER n⟩ : Parser).eat TokenType.INTEGER = .ok ⟨l2, t2⟩ :=
    eat_step rfl h2
  have hnp : (TokenType.MINUS = TokenType.PLUS) = False := by simp
  rw [Parser.die_loop]
  rw [if_pos (Or.inr hcur)]
  simp only [peek1_step h1, peek2_step h1 h2, bindE_ok, type_INTEGER, hcur, hnp,
    decide_eq_true hne, eq_self_iff_true, if_true, if_false, e1, e2]

theorem die_loop_newdie {f : Nat} {p : Parser} {m : Int} {n : Nat}
    {l1 : Lexer} {t2 : Token} {l2 : Lexer}
    (hcur : p.current_token.type = TokenType.PLUS ∨ p.current_token.type = TokenType.MINUS)
    (h1 : p.lexer.get_next_token = .ok (Token.INTEGER n, l1))
    (h2 : l1.get_next_token = .ok (t2, l2))
    (hdl : t2.type = TokenType.DELIM) :
    Parser.die_loop (f + 1) p m = .ok (p, m) := by
  have hd : decide (t2.type ≠ TokenType.DELIM) = false := by rw [hdl]; simp
  rw [Parser.die_loop]
  rw [if_pos hcur]
  simp only [peek1_step h1, peek2_step h1 h2, bindE_ok, type_INTEGER, hd,
    eq_self_iff_true, if_true, Bool.false_eq_true, if_false]

theorem die_steps {fuel : Nat} {p : Parser} {n : Nat} {l1 : Lexer} {s : Nat} {l2 : Lexer}
    {t3 : Token} {l3 : Lexer} {q : Parser} {mo : Int}
    (hc : p.current_token = Token.INTEGER n)
    (h1 : p.lexer.get_next_token = .ok (Token.DELIM, l1))
    (h2 : l1.get_next_token = .ok (Token.INTEGER s, l2))
    (h3 : l2.get_next_token = .ok (t3, l3))
    (hloop : Parser.die_loop fuel ⟨l3, t3⟩ 0 = .ok (q, mo)) :
    Parser.die fuel p = .ok (q, ⟨s, n, mo⟩) := by
  have e1 : p.eat TokenType.INTEGER = .ok ⟨l1, Token.DELIM⟩ := eat_step (by rw [hc]; rfl) h1
  have e2 : (⟨l1, Token.DELIM⟩ : Parser).eat TokenType.DELIM = .ok ⟨l2, Token.INTEGER s⟩ :=
    eat_step rfl h2
  have e3 : (⟨l2, Token.INTEGER s⟩ : Parser).eat TokenType.INTEGER = .ok ⟨l3, t3⟩ :=
    eat_step rfl h3
  unfold Parser.die
  simp only [hc, e1, e2, e3, bindE_ok, hloop]

theorem die_steps_nonum {fuel : Nat} {p : Parser} {s : Nat} {l2 : Lexer}
    {t3 : Token} {l3 : Lexer} {q : Parser} {mo : Int}
    (hc : p.current_token = Token.DELIM)
    (h2 : p.lexer.get_next_token = .ok (Token.INTEGER s, l2))
    (h3 : l2.get_next_token = .ok (t3, l3))
    (hloop : Parser.die_loop fuel ⟨l3, t3⟩ 0 = .ok (q, mo)) :
    Parser.die fuel p = .ok (q, ⟨s, 1, mo⟩) := by
  have e1 : p.eat TokenType.DELIM = .ok ⟨l2, Token.INTEGER s⟩ := eat_step (by rw [hc]; rfl) h2
  have e3 : (⟨l2, Token.INTEGER s⟩ : Parser).eat TokenType.INTEGER = .ok ⟨l3, t3⟩ :=
    eat_step rfl h3
  unfold Parser.die
  simp only [hc, e1, e3, bindE_ok, hloop]

theorem dice_loop_exit (f : Nat) (p : Parser) (acc : List DiceBagItem)
    (h1 : p.current_token.type ≠ TokenType.PLUS) (h2 : p.current_token.type ≠ TokenType.MINUS) :
    Parser.dice_loop (f + 1) p acc = .ok (p, acc) := by
  rw [Parser.dice_loop]
  rw [if_neg h1, if_neg h2]

theorem dice_loop_plus {f : Nat} {p : Parser} {acc : List DiceBagItem} {t : Token} {l1 : Lexer}
    {q : Parser} {d : Die}
    (hc : p.current_token.type = TokenType.PLUS)
    (h1 : p.lexer.get_next_token = .ok (t, l1))
    (hdie : Parser.die f ⟨l1, t⟩ = .ok (q, d)) :
    Parser.dice_loop (f + 1) p acc = Parser.dice_loop f q (acc ++ [⟨d, false⟩]) := by
  have e1 : p.eat TokenType.PLUS = .ok ⟨l1, t⟩ := eat_step hc.symm h1
  rw [Parser.dice_loop]
  rw [if_pos hc]
  simp only [e1, bindE_ok, hdie]

theorem dice_loop_minus {f : Nat} {p : Parser} {acc : List DiceBagItem} {t : Token} {l1 : Lexer}
    {q : Parser} {d : Die}
    (hc : p.current_token.type = TokenType.MINUS)
    (h1 : p.lexer.get_next_token = .ok (t, l1))
    (hdie : Parser.die f ⟨l1, t⟩ = .ok (q, d)) :
    Parser.dice_loop (f + 1) p acc = Parser.dice_loop f q (acc ++ [⟨d, true⟩]) := by
  have e1 : p.eat TokenType.MINUS = .ok ⟨l1, t⟩ := eat_step hc.symm h1
  have hnp : p.current_token.type ≠ TokenType.PLUS := by
    rw [hc]; intro hh; exact TokenType.noConfusion hh
  rw [Parser.dice_loop]
  rw [if_neg hnp, if_pos hc]
  simp only [e1, bindE_ok, hdie]

theorem dice_steps {fuel : Nat} {p q : Parser} {d : Die} {final : Parser}
    {items : List DiceBagItem}
    (hdie : Parser.die fuel p = .ok (q, d))
    (hloop : Parser.dice_loop fuel q [⟨d, false⟩] = .ok (final, items)) :
    Parser.dice fuel p = .ok (final, ⟨items⟩) := by
  unfold Parser.dice
  simp only [hdie, bindE_ok, hloop]

theorem At_nil_pre (suf : List Char) : Lexer.At [] suf = ⟨suf, 0⟩ := rfl

theorem init_steps {text : List Char} {t : Token} {l2 : Lexer}
    (hne : text ≠ []) (hg : (⟨text, 0⟩ : Lexer).get_next_token = .ok (t, l2)) :
    Parser.init text = .ok ⟨l2, t⟩ := by
  unfold Parser.init Lexer.init
  rw [if_neg hne]
  simp only [bindE_ok, hg]

theorem from_str_steps {formula : List Char} {p final : Parser} {bag : DiceBag}
    (hinit : Parser.init formula = .ok p)
    (hdice : Parser.dice (formula.length + 1) p = .ok (final, bag)) :
    DiceBag.from_str formula = .ok bag := by
  unfold DiceBag.from_str
  simp only [hinit, bindE_ok, hdice]

/-! ### Rendering decomposition for the round-trip -/

/-- The modifier suffix of a rendered die: empty for modifier zero, the
signed rendering otherwise. -/
def modSuffix (m : Int) : List Char := if m = 0 then [] else intPlusChars m

theorem Die.str_eq (d : Die) :
    Die.str d = natToChars d.num_dice ++ 'd' :: (natToChars d.sides ++ modSuffix d.modifier) := by
  unfold Die.str modSuffix
  by_cases h : d.modifier = 0
  · simp [h]
  · simp [h]

theorem modSuffix_pos {m : Int} (h0 : 0 < m) :
    modSuffix m = '+' :: natToChars m.toNat := by
  unfold modSuffix intPlusChars
  rw [if_neg (by omega), if_neg (by omega)]

theorem strTail_head_nd (rest : List DiceBagItem) :
    ∀ c, (DiceBag.strTail rest).head? = some c → c.isDigit = false := by
  cases rest with
  | nil => exact nd_nil
  | cons it rest2 =>
    unfold DiceBag.strTail
    exact nd_cons (by decide) _

theorem modSuffix_head_nd {m : Int} (hm : 0 ≤ m) (tail : List Char)
    (htail : ∀ c, tail.head? = some c → c.isDigit = false) :
    ∀ c, (modSuffix m ++ tail).head? = some c → c.isDigit = false := by
  by_cases h : m = 0
  · rw [h]
    show ∀ c, ((modSuffix 0 ++ tail)).head? = some c → c.isDigit = false
    rw [show modSuffix 0 = [] from rfl, List.nil_append]
    exact htail
  · rw [modSuffix_pos (by omega)]
    exact nd_cons (by decide) _

theorem strTail_cons_pos {it : DiceBagItem} (hsub : it.subtracted = false)
    (rest2 : List DiceBagItem) :
    DiceBag.strTail (it :: rest2) = ' ' :: '+' :: ' ' :: (Die.str it.die ++ DiceBag.strTail rest2) := by
  rw [DiceBag.strTail, hsub]
  simp

/-- Pulling a token at a rendered separator consumes the space and the
count numeral of the next die. -/
theorem gnt_sep (P : List Char) (d2 : Die) (tail2 : List Char) :
    (Lexer.At P (' ' :: (Die.str d2 ++ tail2))).get_next_token
      = .ok (Token.INTEGER d2.num_dice,
             Lexer.At ((P ++ [' ']) ++ natToChars d2.num_dice)
               ('d' :: (natToChars d2.sides ++ modSuffix d2.modifier ++ tail2))) := by
  rw [Die.str_eq]
  have hshape : natToChars d2.num_dice ++ 'd' :: (natToChars d2.sides ++ modSuffix d2.modifier) ++ tail2
      = natToChars d2.num_dice ++ ('d' :: (natToChars d2.sides ++ modSuffix d2.modifier ++ tail2)) := by
    simp [List.append_assoc]
  obtain ⟨c0, cs0, hc0⟩ := natToChars_cons d2.num_dice
  rw [hshape]
  rw [show (' ' :: (natToChars d2.num_dice ++ ('d' :: (natToChars d2.sides ++ modSuffix d2.modifier ++ tail2))))
      = ' ' :: c0 :: (cs0 ++ ('d' :: (natToChars d2.sides ++ modSuffix d2.modifier ++ tail2))) from by rw [hc0]; rfl]
  rw [gnt_space]
  rw [show c0 :: (cs0 ++ ('d' :: (natToChars d2.sides ++ modSuffix d2.modifier ++ tail2)))
      = natToChars d2.num_dice ++ ('d' :: (natToChars d2.sides ++ modSuffix d2.modifier ++ tail2)) from by rw [hc0]; rfl]
  rw [gnt_nat _ _ _ (nd_cons (by decide) _)]

/-- At a separator the modifier loop exits: the peeked tokens are the count
INTEGER of the next die followed by its DELIM. -/
theorem die_loop_exit_sep (f : Nat) (P : List Char) (d2 : Die) (tail2 : List Char) (m : Int) :
    Parser.die_loop (f + 1)
      ⟨Lexer.At P (' ' :: (Die.str d2 ++ tail2)), Token.PLUS⟩ m
      = .ok (⟨Lexer.At P (' ' :: (Die.str d2 ++ tail2)), Token.PLUS⟩, m) := by
  refine die_loop_newdie ?_ (gnt_sep P d2 tail2) (gnt_delim _ _) rfl
  exact Or.inl rfl

/-- Parser state after a rendered die has been consumed: at the end of the
text with an EOF lookahead when nothing follows, otherwise past the
separator space and plus sign with a PLUS lookahead. -/
def dieExitState (pre2 : List Char) (rest : List DiceBagItem) : Parser :=
  match rest with
  | [] => ⟨Lexer.At pre2 [], Token.EOF⟩
  | it :: rest2 =>
      ⟨Lexer.At (pre2 ++ [' ', '+']) (' ' :: (Die.str it.die ++ DiceBag.strTail rest2)), Token.PLUS⟩


/-- Parsing one rendered die (count already consumed as the current token):
returns exactly the rendered die and stops at the following separator or at
the end of the input. -/
theorem die_render (f : Nat) (s nd : Nat) (m : Int) (hm : 0 ≤ m) (pre : List Char)
    (rest : List DiceBagItem) (hsub : ∀ it ∈ rest, it.subtracted = false) :
    Parser.die (f + 3)
      ⟨Lexer.At pre ('d' :: (natToChars s ++ (modSuffix m ++ DiceBag.strTail rest))), Token.INTEGER nd⟩
      = .ok (dieExitState (pre ++ 'd' :: (natToChars s ++ modSuffix m)) rest, (⟨s, nd, m⟩ : Die)) := by
  have h1 := gnt_delim pre (natToChars s ++ (modSuffix m ++ DiceBag.strTail rest))
  have h2 := gnt_nat (pre ++ ['d']) s (modSuffix m ++ DiceBag.strTail rest)
    (modSuffix_head_nd hm _ (strTail_head_nd rest))
  by_cases hm0 : m = 0
  · subst hm0
    cases rest with
    | nil =>
      simp only [show modSuffix 0 = [] from rfl,
        show DiceBag.strTail ([] : List DiceBagItem) = [] from rfl,
        List.nil_append, List.append_nil] at h1 h2 ⊢
      have h3 := gnt_eof ((pre ++ ['d']) ++ natToChars s)
      have hloop : Parser.die_loop (f + 3)
          ⟨Lexer.At ((pre ++ ['d']) ++ natToChars s) [], Token.EOF⟩ 0
          = .ok (⟨Lexer.At ((pre ++ ['d']) ++ natToChars s) [], Token.EOF⟩, 0) :=
        die_loop_exit (f + 2) _ 0 (by intro hh; exact TokenType.noConfusion hh)
          (by intro hh; exact TokenType.noConfusion hh)
      rw [die_steps rfl h1 h2 h3 hloop]
      simp [dieExitState, Lexer.At]
    | cons it rest2 =>
      have hsubit : it.subtracted = false := hsub it (List.mem_cons_self it rest2)
      simp only [show modSuffix 0 = [] from rfl, strTail_cons_pos hsubit rest2,
        List.nil_append, List.append_nil] at h1 h2 ⊢
      have h3 := (gnt_space ((pre ++ ['d']) ++ natToChars s) '+'
        (' ' :: (Die.str it.die ++ DiceBag.strTail rest2))).trans
        (gnt_plus (((pre ++ ['d']) ++ natToChars s) ++ [' '])
          (' ' :: (Die.str it.die ++ DiceBag.strTail rest2)))
      have hloop : Parser.die_loop (f + 3)
          ⟨Lexer.At ((((pre ++ ['d']) ++ natToChars s) ++ [' ']) ++ ['+'])
            (' ' :: (Die.str it.die ++ DiceBag.strTail rest2)), Token.PLUS⟩ 0
          = .ok (⟨Lexer.At ((((pre ++ ['d']) ++ natToChars s) ++ [' ']) ++ ['+'])
            (' ' :: (Die.str it.die ++ DiceBag.strTail rest2)), Token.PLUS⟩, 0) :=
        die_loop_exit_sep (f + 2) _ it.die _ 0
      rw [die_steps rfl h1 h2 h3 hloop]
      simp [dieExitState, Lexer.At]
  · have hmp : 0 < m := by omega
    cases rest with
    | nil =>
      simp only [modSuffix_pos hmp,
        show DiceBag.strTail ([] : List DiceBagItem) = [] from rfl,
        List.append_nil, List.cons_append] at h1 h2 ⊢
      have h3 := gnt_plus ((pre ++ ['d']) ++ natToChars s) (natToChars m.toNat)
      have g1 := gnt_nat (((pre ++ ['d']) ++ natToChars s) ++ ['+']) m.toNat [] nd_nil
      simp only [List.append_nil] at g1
      have g2 := gnt_eof ((((pre ++ ['d']) ++ natToChars s) ++ ['+']) ++ natToChars m.toNat)
      have hstep : Parser.die_loop (f + 3)
          ⟨Lexer.At (((pre ++ ['d']) ++ natToChars s) ++ ['+']) (natToChars m.toNat), Token.PLUS⟩ 0
          = Parser.die_loop (f + 2)
            ⟨Lexer.At ((((pre ++ ['d']) ++ natToChars s) ++ ['+']) ++ natToChars m.toNat) [], Token.EOF⟩
            (0 + m.toNat) :=
        die_loop_mod_plus rfl g1 g2 (by intro hh; exact TokenType.noConfusion hh)
      have hexit : Parser.die_loop (f + 2)
          ⟨Lexer.At ((((pre ++ ['d']) ++ natToChars s) ++ ['+']) ++ natToChars m.toNat) [], Token.EOF⟩
            (0 + m.toNat)
          = .ok (⟨Lexer.At ((((pre ++ ['d']) ++ natToChars s) ++ ['+']) ++ natToChars m.toNat) [], Token.EOF⟩,
              0 + m.toNat) :=
        die_loop_exit (f + 1) _ _ (by intro hh; exact TokenType.noConfusion hh)
          (by intro hh; exact TokenType.noConfusion hh)
      rw [die_steps rfl h1 h2 h3 (hstep.trans hexit)]
      simp [dieExitState, Lexer.At, Int.toNat_of_nonneg hm]
    | cons it rest2 =>
      have hsubit : it.subtracted = false := hsub it (List.mem_cons_self it rest2)
      simp only [modSuffix_pos hmp, strTail_cons_pos hsubit rest2,
        List.append_nil, List.cons_append] at h1 h2 ⊢
      have h3 := gnt_plus ((pre ++ ['d']) ++ natToChars s)
        (natToChars m.toNat ++ ' ' :: '+' :: ' ' :: (Die.str it.die ++ DiceBag.strTail rest2))
      have g1 := gnt_nat (((pre ++ ['d']) ++ natToChars s) ++ ['+']) m.toNat
        (' ' :: '+' :: ' ' :: (Die.str it.die ++ DiceBag.strTail rest2)) (nd_cons (by decide) _)
      have g2 := (gnt_space ((((pre ++ ['d']) ++ natToChars s) ++ ['+']) ++ natToChars m.toNat) '+'
        (' ' :: (Die.str it.die ++ DiceBag.strTail rest2))).trans
        (gnt_plus (((((pre ++ ['d']) ++ natToChars s) ++ ['+']) ++ natToChars m.toNat) ++ [' '])
          (' ' :: (Die.str it.die ++ DiceBag.strTail rest2)))
      have hstep : Parser.die_loop (f + 3)
          ⟨Lexer.At (((pre ++ ['d']) ++ natToChars s) ++ ['+'])
            (natToChars m.toNat ++ ' ' :: '+' :: ' ' :: (Die.str it.die ++ DiceBag.strTail rest2)), Token.PLUS⟩ 0
          = Parser.die_loop (f + 2)
            ⟨Lexer.At ((((((pre ++ ['d']) ++ natToChars s) ++ ['+']) ++ natToChars m.toNat) ++ [' ']) ++ ['+'])
              (' ' :: (Die.str it.die ++ DiceBag.strTail rest2)), Token.PLUS⟩ (0 + m.toNat) :=
        die_loop_mod_plus rfl g1 g2 (by intro hh; exact TokenType.noConfusion hh)
      have hexit : Parser.die_loop (f + 2)
          ⟨Lexer.At ((((((pre ++ ['d']) ++ natToChars s) ++ ['+']) ++ natToChars m.toNat) ++ [' ']) ++ ['+'])
            (' ' :: (Die.str it.die ++ DiceBag.strTail rest2)), Token.PLUS⟩ (0 + m.toNat)
          = .ok (⟨Lexer.At ((((((pre ++ ['d']) ++ natToChars s) ++ ['+']) ++ natToChars m.toNat) ++ [' ']) ++ ['+'])
            (' ' :: (Die.str it.die ++ DiceBag.strTail rest2)), Token.PLUS⟩, 0 + m.toNat) :=
        die_loop_exit_sep (f + 1) _ it.die _ _
      rw [die_steps rfl h1 h2 h3 (hstep.trans hexit)]
      simp [dieExitState, Lexer.At, Int.toNat_of_nonneg hm]

/-- The term loop consumes every remaining rendered item, appending them to
the accumulator in order, and stops at end of input. -/
theorem dice_loop_render : ∀ (rest : List DiceBagItem) (f : Nat) (pre : List Char)
    (acc : List DiceBagItem),
    (∀ it ∈ rest, it.subtracted = false) → (∀ it ∈ rest, 0 ≤ it.die.modifier) →
    ∃ q, Parser.dice_loop (f + rest.length + 4) (dieExitState pre rest) acc
      = .ok (q, acc ++ rest) := by
  intro rest
  induction rest with
  | nil =>
    intro f pre acc _ _
    refine ⟨dieExitState pre [], ?_⟩
    rw [show acc ++ ([] : List DiceBagItem) = acc from by simp]
    exact dice_loop_exit (f + 3) _ acc (by intro hh; exact TokenType.noConfusion hh)
      (by intro hh; exact TokenType.noConfusion hh)
  | cons it rest2 ih =>
    intro f pre acc hsub hmod
    have hsubit : it.subtracted = false := hsub it (List.mem_cons_self it rest2)
    have hmodit : 0 ≤ it.die.modifier := hmod it (List.mem_cons_self it rest2)
    have h1 := gnt_sep (pre ++ [' ', '+']) it.die (DiceBag.strTail rest2)
    simp only [List.append_assoc] at h1
    have hdie := die_render (f + rest2.length + 1) it.die.sides it.die.num_dice
      it.die.modifier hmodit
      (((pre ++ [' ', '+']) ++ [' ']) ++ natToChars it.die.num_dice) rest2
      (fun x hx => hsub x (List.mem_cons_of_mem it hx))
    simp only [List.append_assoc] at hdie
    rw [show f + (it :: rest2).length + 4 = (f + rest2.length + 4) + 1 from by
      simp only [List.length_cons]; omega]
    rw [dice_loop_plus
      (show (dieExitState pre (it :: rest2)).current_token.type = TokenType.PLUS from rfl)
      h1 hdie]
    rw [show (⟨it.die, false⟩ : DiceBagItem) = it from by rw [← hsubit]]
    rw [show acc ++ (it :: rest2) = (acc ++ [it]) ++ rest2 from by simp]
    exact ih f _ (acc ++ [it]) (fun x hx => hsub x (List.mem_cons_of_mem it hx))
      (fun x hx => hmod x (List.mem_cons_of_mem it hx))

theorem natToChars_len_pos (n : Nat) : 0 < (natToChars n).length :=
  List.length_pos.mpr (natToChars_ne_nil n)

theorem die_str_len (d : Die) : 3 ≤ (Die.str d).length := by
  rw [Die.str_eq]
  have h1 := natToChars_len_pos d.num_dice
  have h2 := natToChars_len_pos d.sides
  simp only [List.length_append, List.length_cons]
  omega

theorem strTail_len (rest : List DiceBagItem) :
    rest.length ≤ (DiceBag.strTail rest).length := by
  induction rest with
  | nil => simp [DiceBag.strTail]
  | cons it rest2 ih =>
    rw [DiceBag.strTail]
    simp only [List.length_append, List.length_cons]
    omega

/-- Round trip: parsing the rendering of a nonempty, addition-only bag with
non-negative modifiers reproduces the bag exactly. -/
theorem from_str_render (b : DiceBag) (hne : b._bag ≠ [])
    (hsub : ∀ it ∈ b._bag, it.subtracted = false)
    (hmod : ∀ it ∈ b._bag, 0 ≤ it.die.modifier) :
    DiceBag.from_str (DiceBag.str b) = .ok b := by
  obtain ⟨bag⟩ := b
  cases bag with
  | nil => exact absurd rfl hne
  | cons it1 rest =>
    have hsubit1 : it1.subtracted = false := hsub it1 (List.mem_cons_self _ _)
    have hmodit1 : 0 ≤ it1.die.modifier := hmod it1 (List.mem_cons_self _ _)
    have hsubr : ∀ x ∈ rest, x.subtracted = false :=
      fun x hx => hsub x (List.mem_cons_of_mem _ hx)
    have hmodr : ∀ x ∈ rest, 0 ≤ x.die.modifier :=
      fun x hx => hmod x (List.mem_cons_of_mem _ hx)
    have htext : DiceBag.str ⟨it1 :: rest⟩ = Die.str it1.die ++ DiceBag.strTail rest := rfl
    have hne2 : DiceBag.str ⟨it1 :: rest⟩ ≠ [] := by
      intro hcontra
      rw [htext, Die.str_eq] at hcontra
      simp [List.append_eq_nil] at hcontra
    obtain ⟨f1, hf1⟩ : ∃ f1, (DiceBag.str ⟨it1 :: rest⟩).length + 1 = f1 + rest.length + 4 := by
      refine ⟨(DiceBag.str ⟨it1 :: rest⟩).length - rest.length - 3, ?_⟩
      have hb1 := die_str_len it1.die
      have hb2 := strTail_len rest
      rw [htext]
      simp only [List.length_append]
      omega
    have hg : (Lexer.At [] (DiceBag.str ⟨it1 :: rest⟩)).get_next_token
        = .ok (Token.INTEGER it1.die.num_dice,
            Lexer.At ([] ++ natToChars it1.die.num_dice)
              ('d' :: (natToChars it1.die.sides ++ (modSuffix it1.die.modifier ++ DiceBag.strTail rest)))) := by
      rw [htext, Die.str_eq]
      rw [show (natToChars it1.die.num_dice
            ++ 'd' :: (natToChars it1.die.sides ++ modSuffix it1.die.modifier)) ++ DiceBag.strTail rest
          = natToChars it1.die.num_dice
            ++ ('d' :: (natToChars it1.die.sides ++ (modSuffix it1.die.modifier ++ DiceBag.strTail rest)))
        from by simp]
      exact gnt_nat [] _ _ (nd_cons (by decide) _)
    have hinit : Parser.init (DiceBag.str ⟨it1 :: rest⟩)
        = .ok ⟨Lexer.At (natToChars it1.die.num_dice)
            ('d' :: (natToChars it1.die.sides ++ (modSuffix it1.die.modifier ++ DiceBag.strTail rest))),
            Token.INTEGER it1.die.num_dice⟩ := by
      have := init_steps hne2 hg
      simpa using this
    have hdie := die_render (f1 + rest.length + 1) it1.die.sides it1.die.num_dice
      it1.die.modifier hmodit1 (natToChars it1.die.num_dice) rest hsubr
    obtain ⟨q, hq⟩ := dice_loop_render rest f1
      (natToChars it1.die.num_dice
        ++ 'd' :: (natToChars it1.die.sides ++ modSuffix it1.die.modifier))
      [⟨it1.die, false⟩] hsubr hmodr
    have hdice : Parser.dice (f1 + rest.length + 4)
        ⟨Lexer.At (natToChars it1.die.num_dice)
          ('d' :: (natToChars it1.die.sides ++ (modSuffix it1.die.modifier ++ DiceBag.strTail rest))),
          Token.INTEGER it1.die.num_dice⟩
        = .ok (q, ⟨[⟨it1.die, false⟩] ++ rest⟩) := dice_steps hdie hq
    rw [show ([⟨it1.die, false⟩] ++ rest : List DiceBagItem) = it1 :: rest from by
      rw [show (⟨it1.die, false⟩ : DiceBagItem) = it1 from by rw [← hsubit1]]
      rfl] at hdice
    rw [← hf1] at hdice
    exact from_str_steps hinit hdice

/-- The modifier loop is linear in its accumulator: it only ever adds to or
subtracts from the running total, so a run of modifier clauses accumulates
into one net modifier. -/
theorem die_loop_linear : ∀ (f : Nat) (p : Parser) (m : Int) (q : Parser) (r : Int),
    Parser.die_loop f p m = .ok (q, r) →
    ∀ c : Int, Parser.die_loop f p (m + c) = .ok (q, r + c) := by
  intro f
  induction f with
  | zero =>
    intro p m q r h c
    exact absurd h (by simp [Parser.die_loop])
  | succ g ih =>
    intro p m q r h c
    rw [Parser.die_loop] at h ⊢
    by_cases hor : p.current_token.type = TokenType.PLUS ∨ p.current_token.type = TokenType.MINUS
    · rw [if_pos hor] at h ⊢
      cases hpk1 : p.lexer.peek_next_token 1 with
      | error e =>
        simp only [hpk1, bindE_error] at h
        exact Except.noConfusion h
      | ok pk1 =>
        obtain ⟨t1, l1⟩ := pk1
        simp only [hpk1, bindE_ok] at h ⊢
        by_cases ht1 : t1.type = TokenType.INTEGER
        · rw [if_pos ht1] at h ⊢
          cases hpk2 : l1.peek_next_token 2 with
          | error e =>
            simp only [hpk2, bindE_error] at h
            exact Except.noConfusion h
          | ok pk2 =>
            obtain ⟨t2, l2⟩ := pk2
            simp only [hpk2, bindE_ok] at h ⊢
            by_cases ht2 : t2.type = TokenType.DELIM
            · rw [ht2] at h ⊢
              rw [show decide (TokenType.DELIM ≠ TokenType.DELIM) = false from by decide] at h ⊢
              simp only [Bool.false_eq_true, if_false] at h ⊢
              simp only [Except.ok.injEq, Prod.mk.injEq] at h
              obtain ⟨hq, hr⟩ := h
              rw [hq, hr]
            · rw [decide_eq_true ht2] at h ⊢
              simp only [if_true] at h ⊢
              by_cases hplus : p.current_token.type = TokenType.PLUS
              · rw [if_pos hplus] at h ⊢
                cases heat : (⟨l2, p.current_token⟩ : Parser).eat TokenType.PLUS with
                | error e =>
                  simp only [heat, bindE_error] at h
                  exact Except.noConfusion h
                | ok pC =>
                  simp only [heat, bindE_ok] at h ⊢
                  cases hct : pC.current_token with
                  | INTEGER n =>
                    simp only [hct] at h ⊢
                    cases heat2 : pC.eat TokenType.INTEGER with
                    | error e =>
                      simp only [heat2, bindE_error] at h
                      exact Except.noConfusion h
                    | ok pD =>
                      simp only [heat2, bindE_ok] at h ⊢
                      rw [show m + c + (n : Int) = m + n + c from by ring]
                      exact ih pD (m + n) q r h c
                  | DELIM => simp only [hct] at h; exact Except.noConfusion h
                  | PLUS => simp only [hct] at h; exact Except.noConfusion h
                  | MINUS => simp only [hct] at h; exact Except.noConfusion h
                  | EOF => simp only [hct] at h; exact Except.noConfusion h
              · rw [if_neg hplus] at h ⊢
                cases heat : (⟨l2, p.current_token⟩ : Parser).eat TokenType.MINUS with
                | error e =>
                  simp only [heat, bindE_error] at h
                  exact Except.noConfusion h
                | ok pC =>
                  simp only [heat, bindE_ok] at h ⊢
                  cases hct : pC.current_token with
                  | INTEGER n =>
                    simp only [hct] at h ⊢
                    cases heat2 : pC.eat TokenType.INTEGER with
                    | error e =>
                      simp only [heat2, bindE_error] at h
                      exact Except.noConfusion h
                    | ok pD =>
                      simp only [heat2, bindE_ok] at h ⊢
                      rw [show m + c - (n : Int) = m - n + c from by ring]
                      exact ih pD (m - n) q r h c
                  | DELIM => simp only [hct] at h; exact Except.noConfusion h
                  | PLUS => simp only [hct] at h; exact Except.noConfusion h
                  | MINUS => simp only [hct] at h; exact Except.noConfusion h
                  | EOF => simp only [hct] at h; exact Except.noConfusion h
        · rw [if_neg ht1] at h ⊢
          simp only [Bool.false_eq_true, if_false] at h ⊢
          simp only [Except.ok.injEq, Prod.mk.injEq] at h
          obtain ⟨hq, hr⟩ := h
          rw [hq, hr]
    · rw [if_neg hor] at h ⊢
      simp only [Except.ok.injEq, Prod.mk.injEq] at h
      obtain ⟨hq, hr⟩ := h
      rw [hq, hr]

/-! ### Trailing input -/

/-- Parser.dice does not require consuming EndOfInput: when the token after
a parsed die is neither PLUS nor MINUS, the loop exits at once. -/
theorem dice_stops {fuel : Nat} {p pd : Parser} {d : Die}
    (hf : 1 ≤ fuel) (h : Parser.die fuel p = .ok (pd, d))
    (hnp : pd.current_token.type ≠ TokenType.PLUS)
    (hnm : pd.current_token.type ≠ TokenType.MINUS) :
    Parser.dice fuel p = .ok (pd, ⟨[⟨d, false⟩]⟩) := by
  obtain ⟨g, rfl⟩ : ∃ g, fuel = g + 1 := ⟨fuel - 1, by omega⟩
  unfold Parser.dice
  simp only [h, bindE_ok, dice_loop_exit g pd [⟨d, false⟩] hnp hnm]

theorem from_str_int_trailing (junk : List Char) :
    DiceBag.from_str ('d' :: '6' :: ' ' :: '5' :: junk) = .ok ⟨[⟨⟨6, 1, 0⟩, false⟩]⟩ := by
  have hg0 : (Lexer.At [] ('d' :: '6' :: ' ' :: '5' :: junk)).get_next_token
      = .ok (Token.DELIM, Lexer.At ['d'] ('6' :: ' ' :: '5' :: junk)) := by
    have := gnt_delim [] ('6' :: ' ' :: '5' :: junk)
    simpa using this
  have hinit : Parser.init ('d' :: '6' :: ' ' :: '5' :: junk)
      = .ok ⟨Lexer.At ['d'] ('6' :: ' ' :: '5' :: junk), Token.DELIM⟩ :=
    init_steps (by simp) hg0
  have h2 : (Lexer.At ['d'] ('6' :: ' ' :: '5' :: junk)).get_next_token
      = .ok (Token.INTEGER 6, Lexer.At ['d', '6'] (' ' :: '5' :: junk)) := by
    have := gnt_int ['d'] '6' [] (' ' :: '5' :: junk)
      (by intro c hc; simp at hc; subst hc; decide) (nd_cons (by decide) _)
    simpa using this
  obtain ⟨n, l2, hg⟩ := gnt_digit_head ['d', '6', ' '] '5' junk (by decide)
  have h3 : (Lexer.At ['d', '6'] (' ' :: '5' :: junk)).get_next_token
      = .ok (Token.INTEGER n, l2) := (gnt_space ['d', '6'] '5' junk).trans hg
  obtain ⟨g, hfg⟩ : ∃ g, ('d' :: '6' :: ' ' :: '5' :: junk).length + 1 = g + 1 :=
    ⟨('d' :: '6' :: ' ' :: '5' :: junk).length, rfl⟩
  have hloop : Parser.die_loop (('d' :: '6' :: ' ' :: '5' :: junk).length + 1)
      ⟨l2, Token.INTEGER n⟩ 0 = .ok (⟨l2, Token.INTEGER n⟩, 0) := by
    rw [hfg]
    exact die_loop_exit g _ 0 (by intro hh; exact TokenType.noConfusion hh)
      (by intro hh; exact TokenType.noConfusion hh)
  have hdie := die_steps_nonum
    (show (⟨Lexer.At ['d'] ('6' :: ' ' :: '5' :: junk), Token.DELIM⟩ : Parser).current_token
      = Token.DELIM from rfl) h2 h3 hloop
  have hdice := dice_stops (by omega) hdie
    (by intro hh; exact TokenType.noConfusion hh)
    (by intro hh; exact TokenType.noConfusion hh)
  exact from_str_steps hinit hdice

theorem from_str_delim_trailing (junk : List Char) :
    DiceBag.from_str ('2' :: 'd' :: '6' :: ' ' :: 'd' :: junk) = .ok ⟨[⟨⟨6, 2, 0⟩, false⟩]⟩ := by
  have hg0 : (Lexer.At [] ('2' :: 'd' :: '6' :: ' ' :: 'd' :: junk)).get_next_token
      = .ok (Token.INTEGER 2, Lexer.At ['2'] ('d' :: '6' :: ' ' :: 'd' :: junk)) := by
    have := gnt_int [] '2' [] ('d' :: '6' :: ' ' :: 'd' :: junk)
      (by intro c hc; simp at hc; subst hc; decide) (nd_cons (by decide) _)
    simpa using this
  have hinit : Parser.init ('2' :: 'd' :: '6' :: ' ' :: 'd' :: junk)
      = .ok ⟨Lexer.At ['2'] ('d' :: '6' :: ' ' :: 'd' :: junk), Token.INTEGER 2⟩ :=
    init_steps (by simp) hg0
  have h1 : (Lexer.At ['2'] ('d' :: '6' :: ' ' :: 'd' :: junk)).get_next_token
      = .ok (Token.DELIM, Lexer.At ['2', 'd'] ('6' :: ' ' :: 'd' :: junk)) := by
    have := gnt_delim ['2'] ('6' :: ' ' :: 'd' :: junk)
    simpa using this
  have h2 : (Lexer.At ['2', 'd'] ('6' :: ' ' :: 'd' :: junk)).get_next_token
      = .ok (Token.INTEGER 6, Lexer.At ['2', 'd', '6'] (' ' :: 'd' :: junk)) := by
    have := gnt_int ['2', 'd'] '6' [] (' ' :: 'd' :: junk)
      (by intro c hc; simp at hc; subst hc; decide) (nd_cons (by decide) _)
    simpa using this
  have h3 : (Lexer.At ['2', 'd', '6'] (' ' :: 'd' :: junk)).get_next_token
      = .ok (Token.DELIM, Lexer.At (['2', 'd', '6', ' '] ++ ['d']) junk) := by
    refine (gnt_space ['2', 'd', '6'] 'd' junk).trans ?_
    have := gnt_delim ['2', 'd', '6', ' '] junk
    simpa using this
  obtain ⟨g, hfg⟩ : ∃ g, ('2' :: 'd' :: '6' :: ' ' :: 'd' :: junk).length + 1 = g + 1 :=
    ⟨('2' :: 'd' :: '6' :: ' ' :: 'd' :: junk).length, rfl⟩
  have hloop : Parser.die_loop (('2' :: 'd' :: '6' :: ' ' :: 'd' :: junk).length + 1)
      ⟨Lexer.At (['2', 'd', '6', ' '] ++ ['d']) junk, Token.DELIM⟩ 0
      = .ok (⟨Lexer.At (['2', 'd', '6', ' '] ++ ['d']) junk, Token.DELIM⟩, 0) := by
    rw [hfg]
    exact die_loop_exit g _ 0 (by intro hh; exact TokenType.noConfusion hh)
      (by intro hh; exact TokenType.noConfusion hh)
  have hdie := die_steps
    (show (⟨Lexer.At ['2'] ('d' :: '6' :: ' ' :: 'd' :: junk), Token.INTEGER 2⟩ : Parser).current_token
      = Token.INTEGER 2 from rfl) h1 h2 h3 hloop
  have hdice := dice_stops (by omega) hdie
    (by intro hh; exact TokenType.noConfusion hh)
    (by intro hh; exact TokenType.noConfusion hh)
  exact from_str_steps hinit hdice

/-! ### Roll semantics lemmas -/

theorem roll_eq_iff (d : Die) (draws : List Int) (v : Int) :
    d.roll draws = some v ↔ DrawsValid d draws ∧ v = draws.sum + d.modifier := by
  unfold Die.roll
  by_cases h : DrawsValid d draws
  · simp [h, eq_comm]
  · simp [h]

theorem sum_bounds (s : Nat) : ∀ ds : List Int, (∀ x ∈ ds, 1 ≤ x ∧ x ≤ (s : Int)) →
    (ds.length : Int) ≤ ds.sum ∧ ds.sum ≤ (ds.length : Int) * s := by
  intro ds
  induction ds with
  | nil => intro _; simp
  | cons x xs ih =>
    intro h
    have hx := h x (List.mem_cons_self x xs)
    have hxs := ih fun y hy => h y (List.mem_cons_of_mem x hy)
    simp only [List.length_cons, List.sum_cons]
    push_cast
    constructor
    · linarith [hxs.1]
    · have : ((xs.length : Int) + 1) * s = (xs.length : Int) * s + s := by ring
      rw [this]
      linarith [hxs.2]

theorem item_roll_bounds (it : DiceBagItem) (ds : List Int) (v : Int)
    (h : it.roll ds = some v) : it.minRoll ≤ v ∧ v ≤ it.maxRoll := by
  unfold DiceBagItem.roll at h
  cases hw : it.die.roll ds with
  | none => rw [hw] at h; exact absurd h (by simp)
  | some w =>
    rw [hw] at h
    simp only [Option.map_some', Option.some.injEq] at h
    obtain ⟨hvalid, hwval⟩ := (roll_eq_iff _ _ _).mp hw
    have hsum := sum_bounds it.die.sides ds hvalid.2
    rw [hvalid.1] at hsum
    unfold DiceBagItem.minRoll DiceBagItem.maxRoll
    cases hsub : it.subtracted with
    | false =>
      rw [hsub] at h
      simp only [Bool.false_eq_true, if_false, one_mul] at h ⊢
      subst h
      constructor
      · linarith [hsum.1]
      · linarith [hsum.2]
    | true =>
      rw [hsub] at h
      simp only [if_true, neg_mul, one_mul] at h ⊢
      subst h
      constructor
      · linarith [hsum.2]
      · linarith [hsum.1]

theorem roll_items_bounds : ∀ (items : List DiceBagItem) (dss : List (List Int)) (v : Int),
    DiceBag.roll_items items dss = some v →
    (items.map DiceBagItem.minRoll).sum ≤ v ∧ v ≤ (items.map DiceBagItem.maxRoll).sum := by
  intro items
  induction items with
  | nil =>
    intro dss v h
    cases dss with
    | nil =>
      simp only [DiceBag.roll_items, Option.some.injEq] at h
      subst h
      simp
    | cons ds dss2 => exact absurd h (by simp [DiceBag.roll_items])
  | cons it items2 ih =>
    intro dss v h
    cases dss with
    | nil => exact absurd h (by simp [DiceBag.roll_items])
    | cons ds dss2 =>
      rw [DiceBag.roll_items] at h
      cases hw : it.roll ds with
      | none => rw [hw] at h; exact absurd h (by simp)
      | some w =>
        rw [hw] at h
        cases hr : DiceBag.roll_items items2 dss2 with
        | none => rw [hr] at h; exact absurd h (by simp)
        | some r =>
          rw [hr] at h
          simp only [Option.bind_eq_bind, Option.some_bind, Option.pure_def,
            Option.some.injEq] at h
          subst h
          have h1 := item_roll_bounds it ds w hw
          have h2 := ih dss2 r hr
          simp only [List.map_cons, List.sum_cons]
          constructor
          · linarith [h1.1, h2.1]
          · linarith [h1.2, h2.2]

theorem roll_items_exists : ∀ items : List DiceBagItem,
    (∀ it ∈ items, 1 ≤ it.die.sides) →
    ∃ dss v, DiceBag.roll_items items dss = some v := by
  intro items
  induction items with
  | nil => exact fun _ => ⟨[], 0, rfl⟩
  | cons it items2 ih =>
    intro h
    obtain ⟨dss, v, hv⟩ := ih fun x hx => h x (List.mem_cons_of_mem it hx)
    have hs := h it (List.mem_cons_self it items2)
    have hroll : it.roll (List.replicate it.die.num_dice 1)
        = some ((if it.subtracted then (-1 : Int) else 1)
            * ((List.replicate it.die.num_dice (1 : Int)).sum + it.die.modifier)) := by
      unfold DiceBagItem.roll
      rw [show it.die.roll (List.replicate it.die.num_dice 1)
          = some ((List.replicate it.die.num_dice (1 : Int)).sum + it.die.modifier) from by
        apply (roll_eq_iff _ _ _).mpr
        refine ⟨⟨by simp, ?_⟩, rfl⟩
        intro x hx
        rw [List.eq_of_mem_replicate hx]
        constructor
        · exact le_refl 1
        · exact_mod_cast hs]
      simp
    refine ⟨List.replicate it.die.num_dice 1 :: dss,
      (if it.subtracted then (-1 : Int) else 1)
        * ((List.replicate it.die.num_dice (1 : Int)).sum + it.die.modifier) + v, ?_⟩
    rw [DiceBag.roll_items, hroll, hv]
    rfl

theorem roll_items_spec : ∀ (items : List DiceBagItem) (dss : List (List Int)),
    items.length = dss.length →
    (∀ pr ∈ items.zip dss, DrawsValid pr.1.die pr.2) →
    DiceBag.roll_items items dss
      = some (((items.zip dss).map fun pr =>
          (if pr.1.subtracted then (-1 : Int) else 1) * (pr.2.sum + pr.1.die.modifier)).sum) := by
  intro items
  induction items with
  | nil =>
    intro dss hlen _
    cases dss with
    | nil => simp [DiceBag.roll_items]
    | cons ds dss2 => simp at hlen
  | cons it items2 ih =>
    intro dss hlen hval
    cases dss with
    | nil => simp at hlen
    | cons ds dss2 =>
      have hv1 : DrawsValid it.die ds := hval (it, ds) (by simp [List.zip_cons_cons])
      have hroll : it.roll ds
          = some ((if it.subtracted then (-1 : Int) else 1) * (ds.sum + it.die.modifier)) := by
        unfold DiceBagItem.roll
        rw [show it.die.roll ds = some (ds.sum + it.die.modifier) from
          (roll_eq_iff _ _ _).mpr ⟨hv1, rfl⟩]
        simp
      rw [DiceBag.roll_items, hroll,
        ih dss2 (by simpa using hlen) (fun pr hpr => hval pr (by
          simp only [List.zip_cons_cons, List.mem_cons]
          exact Or.inr hpr))]
      simp [List.zip_cons_cons]

theorem bag_min_max_eq_spec (b : DiceBag) (h : ∀ it ∈ b._bag, it.subtracted = false) :
    b.bagMin = b.specMin ∧ b.bagMax = b.specMax := by
  unfold DiceBag.bagMin DiceBag.bagMax DiceBag.specMin DiceBag.specMax
  constructor
  · congr 1
    apply List.map_congr_left
    intro it hit
    unfold DiceBagItem.minRoll
    rw [h it hit]
    simp
  · congr 1
    apply List.map_congr_left
    intro it hit
    unfold DiceBagItem.maxRoll
    rw [h it hit]
    simp

/-! ### Claim theorems -/

/-- C1: in the modifier loop of Parser.die, an operator followed by an
INTEGER is consumed as a modifier of the die being built exactly when the
token after that integer is not a DELIM; when it is a DELIM the loop exits
with the operator unconsumed, so it starts a new die in Parser.dice. In
particular the formula 2d6+5d4 parses to the two added terms 2d6 and 5d4
with no modifier, while 2d6+5+1d4 parses to a first term with modifier 5
followed by the added term 1d4. -/
theorem claim_C1 :
    (∀ (f : Nat) (p : Parser) (m : Int) (n : Nat) (l1 : Lexer) (t2 : Token) (l2 : Lexer),
      (p.current_token.type = TokenType.PLUS ∨ p.current_token.type = TokenType.MINUS) →
      p.lexer.get_next_token = .ok (Token.INTEGER n, l1) →
      l1.get_next_token = .ok (t2, l2) →
      ((t2.type ≠ TokenType.DELIM →
        Parser.die_loop (f + 1) p m
          = Parser.die_loop f ⟨l2, t2⟩
              (if p.current_token.type = TokenType.PLUS then m + n else m - n)) ∧
       (t2.type = TokenType.DELIM → Parser.die_loop (f + 1) p m = .ok (p, m))))
    ∧ DiceBag.from_str ("2d6+5d4").toList
        = .ok ⟨[⟨⟨6, 2, 0⟩, false⟩, ⟨⟨4, 5, 0⟩, false⟩]⟩
    ∧ DiceBag.from_str ("2d6+5+1d4").toList
        = .ok ⟨[⟨⟨6, 2, 5⟩, false⟩, ⟨⟨4, 1, 0⟩, false⟩]⟩ := by
  refine ⟨?_, rfl, rfl⟩
  intro f p m n l1 t2 l2 hor h1 h2
  constructor
  · intro hne
    rcases hor with hplus | hminus
    · rw [if_pos hplus]
      exact die_loop_mod_plus hplus h1 h2 hne
    · rw [if_neg (by rw [hminus]; intro hh; exact TokenType.noConfusion hh)]
      exact die_loop_mod_minus hminus h1 h2 hne
  · intro hdl
    exact die_loop_newdie hor h1 h2 hdl

theorem claim_C1_witness :
    Parser.die_loop 2 ⟨⟨("5d4").toList, 0⟩, Token.PLUS⟩ 0
      = .ok (⟨⟨("5d4").toList, 0⟩, Token.PLUS⟩, 0) :=
  (claim_C1.1 1 ⟨⟨("5d4").toList, 0⟩, Token.PLUS⟩ 0 5 ⟨("5d4").toList, 1⟩ Token.DELIM
    ⟨("5d4").toList, 2⟩ (Or.inl rfl) rfl rfl).2 rfl

/-- C2: the modifier loop is linear in its accumulator, so a maximal run of
modifier clauses accumulates into a single net signed modifier (PLUS adds,
MINUS subtracts); in particular 2d10-1+7-2d4+1-1+2 parses to exactly the
added term 2d10 with modifier 6 and the subtracted term 2d4 with
modifier 2. -/
theorem claim_C2 :
    (∀ (f : Nat) (p : Parser) (m : Int) (q : Parser) (r : Int),
      Parser.die_loop f p m = .ok (q, r) →
      ∀ c : Int, Parser.die_loop f p (m + c) = .ok (q, r + c))
    ∧ DiceBag.from_str ("2d10-1+7-2d4+1-1+2").toList
        = .ok ⟨[⟨⟨10, 2, 6⟩, false⟩, ⟨⟨4, 2, 2⟩, true⟩]⟩ :=
  ⟨die_loop_linear, rfl⟩

theorem claim_C2_witness :
    Parser.die_loop 3 ⟨⟨("+5").toList, 1⟩, Token.PLUS⟩ ((0 : Int) + 2)
      = .ok (⟨⟨("+5").toList, 2⟩, Token.EOF⟩, (5 : Int) + 2) :=
  claim_C2.1 3 ⟨⟨("+5").toList, 1⟩, Token.PLUS⟩ 0 ⟨⟨("+5").toList, 2⟩, Token.EOF⟩ 5 rfl 2

/-- C3: contrary to the claim, get_next_token does not survive a remainder
of pure whitespace: after skip_whitespace runs off the end of the text the
source dereferences the none current character, raising an AttributeError
(noneIsDecimal here). Consequently a parseable formula with trailing
whitespace appended fails to parse: d6 parses but the formula d6 followed
by a space raises instead of returning the same DiceBag. -/
theorem claim_C3 :
    (⟨("d6 ").toList, 2⟩ : Lexer).get_next_token = .error .noneIsDecimal
    ∧ DiceBag.from_str ("d6 ").toList = .error .noneIsDecimal
    ∧ DiceBag.from_str ("d6").toList = .ok ⟨[⟨⟨6, 1, 0⟩, false⟩]⟩ :=
  ⟨rfl, rfl, rfl⟩

/-- C4 counterexample: the bag parsed from d6+100-1d4 has the claimed
specification minimum 100 (which is non-negative, so the claimed
hypothesis of a non-negative minimum holds) and claimed maximum 102, yet
the draws 6 and 1 give the roll 105, outside the claimed interval: for a
subtracted term the claimed signed formulas swap its two extremes. -/
theorem claim_C4_counterexample :
    DiceBag.from_str ("d6+100-1d4").toList
      = .ok ⟨[⟨⟨6, 1, 100⟩, false⟩, ⟨⟨4, 1, 0⟩, true⟩]⟩
    ∧ DiceBag.specMin ⟨[⟨⟨6, 1, 100⟩, false⟩, ⟨⟨4, 1, 0⟩, true⟩]⟩ = 100
    ∧ (0 : Int) ≤ 100
    ∧ DiceBag.specMax ⟨[⟨⟨6, 1, 100⟩, false⟩, ⟨⟨4, 1, 0⟩, true⟩]⟩ = 102
    ∧ DiceBag.roll ⟨[⟨⟨6, 1, 100⟩, false⟩, ⟨⟨4, 1, 0⟩, true⟩]⟩ [[6], [1]] = some 105
    ∧ ¬((105 : Int) ≤ 102) :=
  ⟨rfl, by decide, by decide, by decide, by decide, by decide⟩

/-- C4 amended: every successful roll of a DiceBag is an integer within
the per-sign bounds whose subtracted terms contribute the negated maximum
to the minimum and the negated minimum to the maximum; for a bag with no
subtracted terms these bounds coincide with the claimed signed formulas
(sum of sign times num_dice plus modifier, and of sign times num_dice
times sides plus modifier); and a bag all of whose dice have at least one
side always has a successful roll. -/
theorem claim_C4 :
    (∀ (b : DiceBag) (dss : List (List Int)) (v : Int),
      b.roll dss = some v → b.bagMin ≤ v ∧ v ≤ b.bagMax)
    ∧ (∀ b : DiceBag, (∀ it ∈ b._bag, it.subtracted = false)
        → b.bagMin = b.specMin ∧ b.bagMax = b.specMax)
    ∧ (∀ b : DiceBag, (∀ it ∈ b._bag, 1 ≤ it.die.sides)
        → ∃ dss v, b.roll dss = some v) :=
  ⟨fun b dss v h => roll_items_bounds b._bag dss v h,
   fun b h => bag_min_max_eq_spec b h,
   fun b h => roll_items_exists b._bag h⟩

theorem claim_C4_witness :
    DiceBag.bagMin ⟨[⟨⟨6, 1, 0⟩, false⟩]⟩ ≤ 3
      ∧ (3 : Int) ≤ DiceBag.bagMax ⟨[⟨⟨6, 1, 0⟩, false⟩]⟩ :=
  claim_C4.1 ⟨[⟨⟨6, 1, 0⟩, false⟩]⟩ [[3]] 3 (by decide)

/-- C5: rendering round trip. For every nonempty DiceBag built purely from
non-subtracted terms with non-negative modifiers, parsing its string
rendering returns exactly the same bag: same number of terms and, at each
position, the same sides, num_dice, modifier and sign. -/
theorem claim_C5 (b : DiceBag) (hne : b._bag ≠ [])
    (hsub : ∀ it ∈ b._bag, it.subtracted = false)
    (hmod : ∀ it ∈ b._bag, 0 ≤ it.die.modifier) :
    DiceBag.from_str (DiceBag.str b) = .ok b :=
  from_str_render b hne hsub hmod

theorem claim_C5_witness :
    DiceBag.from_str (DiceBag.str ⟨[⟨⟨6, 2, 5⟩, false⟩, ⟨⟨4, 1, 0⟩, false⟩]⟩)
      = .ok ⟨[⟨⟨6, 2, 5⟩, false⟩, ⟨⟨4, 1, 0⟩, false⟩]⟩ :=
  claim_C5 ⟨[⟨⟨6, 2, 5⟩, false⟩, ⟨⟨4, 1, 0⟩, false⟩]⟩ (by decide) (by decide) (by decide)

/-- C6: Die.roll succeeds with value v exactly when the draws are num_dice
integers each in the closed interval from 1 to sides and v is their sum
plus the modifier; DiceBag.roll is the sum over the terms of sign times
the term roll, each term drawn independently; and a die with one side and
one count always rolls to 1 plus its modifier. -/
theorem claim_C6 :
    (∀ (d : Die) (draws : List Int) (v : Int),
      d.roll draws = some v ↔
        (draws.length = d.num_dice ∧ (∀ x ∈ draws, 1 ≤ x ∧ x ≤ (d.sides : Int))
          ∧ v = draws.sum + d.modifier))
    ∧ (∀ (items : List DiceBagItem) (dss : List (List Int)),
        items.length = dss.length →
        (∀ pr ∈ items.zip dss, DrawsValid pr.1.die pr.2) →
        DiceBag.roll_items items dss
          = some (((items.zip dss).map fun pr =>
              (if pr.1.subtracted then (-1 : Int) else 1) * (pr.2.sum + pr.1.die.modifier)).sum))
    ∧ (∀ m : Int, (Die.mk 1 1 m).roll [1] = some (1 + m))
    ∧ (∀ (m : Int) (draws : List Int) (v : Int),
        (Die.mk 1 1 m).roll draws = some v → v = 1 + m) := by
  refine ⟨?_, roll_items_spec, ?_, ?_⟩
  · intro d draws v
    rw [roll_eq_iff]
    unfold DrawsValid
    rw [and_assoc]
  · intro m
    apply (roll_eq_iff _ _ _).mpr
    refine ⟨⟨rfl, ?_⟩, by simp⟩
    intro x hx
    simp only [List.mem_singleton] at hx
    subst hx
    exact ⟨le_refl 1, by norm_num⟩
  · intro m draws v h
    obtain ⟨⟨hlen, hall⟩, hv⟩ := (roll_eq_iff _ _ _).mp h
    cases draws with
    | nil => simp at hlen
    | cons x xs =>
      cases xs with
      | nil =>
        have hx := hall x (List.mem_cons_self _ _)
        have hx1 : x = 1 := by
          have h1 := hx.1
          have h2 := hx.2
          push_cast at h2
          omega
        subst hx1
        rw [hv]
        simp
      | cons y ys => simp at hlen

theorem claim_C6_witness :
    DiceBag.roll_items [⟨⟨6, 1, 0⟩, false⟩] [[4]] = some 4 := by
  have := claim_C6.2.1 [⟨⟨6, 1, 0⟩, false⟩] [[4]] rfl (by decide)
  simpa using this

/-- C7: each malformed input is rejected with the specified error and no
bag is returned: the empty string raises the invalid-input error of the
Lexer constructor, 2x6 raises the invalid-character error naming the
character x at zero-based index 1, and d raises the unexpected-token error
naming expected kind INTEGER and actual kind EOF. -/
theorem claim_C7 :
    DiceBag.from_str [] = .error .invalidInput
    ∧ DiceBag.from_str ("2x6").toList = .error (.invalidChar 'x' 1)
    ∧ DiceBag.from_str ("d").toList
        = .error (.unexpectedToken TokenType.INTEGER TokenType.EOF) :=
  ⟨rfl, rfl, rfl⟩

/-- C8: for ahead at least one, peek_next_token returns the token the
ahead-th successive get_next_token call would produce, and the lexer it
returns is the untouched original (cursor and current-character view
restored, no input consumed); for ahead below one it fails with the
invalid-argument error. -/
theorem claim_C8 :
    (∀ (l : Lexer) (ahead : Int), 1 ≤ ahead →
      l.peek_next_token ahead = (l.gnt_iter (ahead.toNat - 1)).map fun tl => (tl.1, l))
    ∧ (∀ (l : Lexer) (ahead : Int) (t : Token) (l2 : Lexer),
        l.peek_next_token ahead = .ok (t, l2) → l2 = l)
    ∧ (∀ (l : Lexer) (ahead : Int), ahead < 1 →
        l.peek_next_token ahead = .error .invalidArgument) :=
  ⟨peek_spec, fun _ _ _ _ h => peek_restores h, peek_invalid⟩

theorem claim_C8_witness :
    Lexer.peek_next_token ⟨("2d6").toList, 0⟩ 2 = .ok (Token.DELIM, ⟨("2d6").toList, 0⟩) := by
  have := claim_C8.1 ⟨("2d6").toList, 0⟩ 2 (by norm_num)
  rw [this]
  rfl

/-- C9 counterexample: the claim fails as stated. The formula 2d6+5 is
well-formed and parses to the single term 2d6 with modifier 5; the
trailing text consisting of a space, d and 4 lexes first to a DELIM
token; yet parsing the concatenation does not return the prefix bag: the
lookahead reinterprets the modifier 5 as the count of a new die, yielding
the two terms 2d6 and 5d4. -/
theorem claim_C9_counterexample :
    DiceBag.from_str ("2d6+5").toList = .ok ⟨[⟨⟨6, 2, 5⟩, false⟩]⟩
    ∧ (Lexer.init ((" d4").toList) >>= Lexer.get_next_token)
        = .ok (Token.DELIM, ⟨(" d4").toList, 2⟩)
    ∧ DiceBag.from_str ("2d6+5 d4").toList
        = .ok ⟨[⟨⟨6, 2, 0⟩, false⟩, ⟨⟨4, 5, 0⟩, false⟩]⟩
    ∧ (⟨[⟨⟨6, 2, 0⟩, false⟩, ⟨⟨4, 5, 0⟩, false⟩]⟩ : DiceBag)
        ≠ ⟨[⟨⟨6, 2, 5⟩, false⟩]⟩ :=
  ⟨rfl, rfl, rfl, by decide⟩

/-- C9 amended: parsing indeed never requires consuming end-of-input —
Parser.dice returns as soon as the token after a die is neither PLUS nor
MINUS — and trailing input is silently ignored when it cannot interact
with the formula lookahead: for any trailing characters whatsoever, the
input d6 space 5 followed by them parses to the bag of d6 (the trailing
characters after the integer token are never examined), and the input
2d6 space d followed by anything parses to the bag of 2d6; but trailing
text beginning with a Delim can retroactively change how a formula ending
in a modifier clause is parsed, as the counterexample shows. -/
theorem claim_C9 :
    (∀ (fuel : Nat) (p pd : Parser) (d : Die),
      1 ≤ fuel → Parser.die fuel p = .ok (pd, d) →
      pd.current_token.type ≠ TokenType.PLUS → pd.current_token.type ≠ TokenType.MINUS →
      Parser.dice fuel p = .ok (pd, ⟨[⟨d, false⟩]⟩))
    ∧ (∀ junk : List Char,
        DiceBag.from_str ('d' :: '6' :: ' ' :: '5' :: junk) = .ok ⟨[⟨⟨6, 1, 0⟩, false⟩]⟩)
    ∧ (∀ junk : List Char,
        DiceBag.from_str ('2' :: 'd' :: '6' :: ' ' :: 'd' :: junk) = .ok ⟨[⟨⟨6, 2, 0⟩, false⟩]⟩) :=
  ⟨fun _ _ _ _ hf h h1 h2 => dice_stops hf h h1 h2,
   from_str_int_trailing, from_str_delim_trailing⟩

theorem claim_C9_witness :
    Parser.dice 4 ⟨⟨("d6").toList, 1⟩, Token.DELIM⟩
      = .ok (⟨⟨("d6").toList, 2⟩, Token.EOF⟩, ⟨[⟨⟨6, 1, 0⟩, false⟩]⟩) :=
  claim_C9.1 4 ⟨⟨("d6").toList, 1⟩, Token.DELIM⟩ ⟨⟨("d6").toList, 2⟩, Token.EOF⟩ ⟨6, 1, 0⟩
    (by norm_num) rfl (by intro hh; exact TokenType.noConfusion hh)
    (by intro hh; exact TokenType.noConfusion hh)

/-- C10: the parser enforces no positivity on sides: d0 parses to the
single added term with sides 0, count 1, modifier 0; but rolling a die
with sides 0 and at least one die can never succeed, since a draw would
have to lie in the empty interval from 1 to 0 — so a successful parse
does not guarantee a successful roll. -/
theorem claim_C10 :
    DiceBag.from_str ("d0").toList = .ok ⟨[⟨⟨0, 1, 0⟩, false⟩]⟩
    ∧ (∀ (n : Nat) (m : Int) (draws : List Int), 1 ≤ n →
        (Die.mk 0 n m).roll draws = none) := by
  refine ⟨rfl, ?_⟩
  intro n m draws hn
  unfold Die.roll
  rw [if_neg]
  intro hvalid
  obtain ⟨hlen, hall⟩ := hvalid
  cases draws with
  | nil => simp at hlen; omega
  | cons x xs =>
    have hx := hall x (List.mem_cons_self _ _)
    have h1 := hx.1
    have h2 := hx.2
    push_cast at h2
    omega

theorem claim_C10_witness : (Die.mk 0 1 0).roll [0] = none :=
  claim_C10.2 1 0 [0] (le_refl 1)
